import Mathlib

/-!
# Persistent key-value store (`src/main.cpp`)

A shallow embedding of the snapshot codec (`kvstore::load`, `kvstore::save`) and of the
insert / delete / find branches of the command loop in `main`.

Modelling conventions.

* A file is a `List UInt8`; a file that cannot be opened is `none`.
* `std::string` keys are byte strings (`List UInt8`).
* `int` / `int32_t` values are `Int`; the 32-bit range is the predicate `isInt32`, and the
  object representation written to the file is the little-endian two's complement one.
* `std::unordered_map<string, vector<int>>` is an association list.  The order of the list is
  the (unspecified) iteration order of the container; results about the store are stated
  through `find`, so they do not depend on it.  Distinctness of keys is `UniqueKeys`.
* `Header` has the object layout of the x86-64 System V ABI that `g++` uses: `magic` at
  offset 0, `version` at 4, `reserved` at 8, four padding bytes, `count` at 16,
  `sizeof(Header) = 24`, little endian.
* `std::lower_bound` is taken from its specification in the C++ standard: it returns the
  furthest position such that every element before it is less than the value.
-/

set_option autoImplicit false

namespace kvstore

/-! ## Fixed-width integers -/

/-- The `w` bytes of the little-endian object representation of `x mod 256^w`. -/
def putLE : Nat → Nat → List UInt8
  | 0, _ => []
  | w + 1, x => UInt8.ofNat (x % 256) :: putLE w (x / 256)

/-- The unsigned integer whose little-endian object representation is `bs`. -/
def getLE : List UInt8 → Nat
  | [] => 0
  | b :: bs => b.toNat + 256 * getLE bs

/-- Range of `int` / `int32_t`. -/
def isInt32 (v : Int) : Prop := -2147483648 ≤ v ∧ v < 2147483648

instance (v : Int) : Decidable (isInt32 v) := by
  unfold isInt32; infer_instance

/-- The 32-bit pattern of an `int32_t` (two's complement). -/
def int32Bits (v : Int) : Nat := (v % 4294967296).toNat

/-- The `int32_t` whose 32-bit pattern is `u`. -/
def toInt32 (u : Nat) : Int :=
  if u % 4294967296 < 2147483648 then ((u % 4294967296 : Nat) : Int)
  else ((u % 4294967296 : Nat) : Int) - 4294967296

/-! ## Constants and header -/

/-- Line 10: `MAGIC = 0x4B565354u`. -/
def MAGIC : Nat := 0x4B565354

/-- Line 11: `VERSION = 1u`. -/
def VERSION : Nat := 1

/-- Lines 13-18: `struct Header`, with its default member initializers as `Header.init`. -/
structure Header where
  magic : Nat
  version : Nat
  reserved : Nat
  count : Nat
  deriving DecidableEq, Repr

/-- The value of `Header h{}`. -/
def Header.init : Header := { magic := MAGIC, version := VERSION, reserved := 0, count := 0 }

/-- Number of padding bytes between `reserved` and `count` (alignment of `uint64_t` is 8). -/
def headerPadding : Nat := 4

/-- The value of `sizeof(Header)`. -/
def sizeofHeader : Nat := 12 + headerPadding + 8

/-- Object representation of a `Header`, as written by `fout.write(&h, sizeof(h))`.
The padding bytes are not inspected by `load`; they are written as zero here. -/
def Header.bytes (h : Header) : List UInt8 :=
  putLE 4 h.magic ++ putLE 4 h.version ++ putLE 4 h.reserved
    ++ List.replicate headerPadding 0 ++ putLE 8 h.count

/-- The `Header` whose object representation is `bs` (`sizeof(Header)` bytes). -/
def Header.ofBytes (bs : List UInt8) : Header :=
  { magic := getLE (bs.take 4)
    version := getLE ((bs.drop 4).take 4)
    reserved := getLE ((bs.drop 8).take 4)
    count := getLE ((bs.drop (12 + headerPadding)).take 8) }

/-! ## Input stream -/

/-- The state of an `ifstream` opened on a file: the bytes not yet consumed, and `failbit`. -/
structure IStream where
  buf : List UInt8
  failed : Bool
  deriving DecidableEq, Repr

/-- Semantics of `fin.read(p, n)`: on a failed stream nothing is extracted; if `n` bytes are
available they are extracted; otherwise what is left is extracted and `failbit` is set.
Returns the extracted bytes and the new stream state. -/
def IStream.read (s : IStream) (n : Nat) : List UInt8 × IStream :=
  if s.failed then ([], s)
  else if n ≤ s.buf.length then (s.buf.take n, { buf := s.buf.drop n, failed := false })
  else (s.buf, { buf := [], failed := true })

/-! ## Sorted vectors -/

/-- Specification of `std::lower_bound(vec.begin(), vec.end(), v) - vec.begin()`: the number of
leading elements that are less than `v`. -/
def lower_bound : List Int → Int → Nat
  | [], _ => 0
  | x :: xs, v => if x < v then lower_bound xs v + 1 else 0

/-- Lines 43-44 and 93-94: `it = lower_bound(..., v); if (it == end || *it != v) vec.insert(it, v)`. -/
def sortedInsert (vec : List Int) (v : Int) : List Int :=
  let it := lower_bound vec v
  if it = vec.length ∨ vec.get? it ≠ some v then vec.take it ++ v :: vec.drop it else vec

/-- Lines 100-101: `it = lower_bound(..., v); if (it != end && *it == v) vec.erase(it)`. -/
def sortedErase (vec : List Int) (v : Int) : List Int :=
  let it := lower_bound vec v
  if it ≠ vec.length ∧ vec.get? it = some v then vec.take it ++ vec.drop (it + 1) else vec

/-! ## The store -/

/-- A key is a `std::string`: a byte string. -/
abbrev Key := List UInt8

/-- The container `unordered_map<string, vector<int>>`, in iteration order. -/
abbrev Store := List (Key × List Int)

/-- The method `store.find(key)`: the mapped vector, or `none` for `store.end()`. -/
def find : Store → Key → Option (List Int)
  | [], _ => none
  | (k, vec) :: rest, key => if k = key then some vec else find rest key

/-- The method `store[key]`: a missing key gets a default (empty) vector. -/
def subscript (store : Store) (key : Key) : Store :=
  match find store key with
  | some _ => store
  | none => store ++ [(key, [])]

/-- Assignment through the reference `vec` to the vector mapped at `key`. -/
def modify : Store → Key → (List Int → List Int) → Store
  | [], _, _ => []
  | (k, vec) :: rest, key, f =>
    if k = key then (k, f vec) :: rest else (k, vec) :: modify rest key f

/-- The method `store.erase(itK)` for the iterator `itK` at `key`. -/
def eraseKey : Store → Key → Store
  | [], _ => []
  | (k, vec) :: rest, key => if k = key then rest else (k, vec) :: eraseKey rest key

/-- Lines 92-94 (and 41-44 in `load`): the insert branch. -/
def insert (store : Store) (key : Key) (v : Int) : Store :=
  modify (subscript store key) key (fun vec => sortedInsert vec v)

/-- Lines 97-103: the delete branch. -/
def delete (store : Store) (key : Key) (v : Int) : Store :=
  match find store key with
  | none => store
  | some vec =>
    let vec1 := sortedErase vec v
    if vec1.isEmpty then eraseKey store key else modify store key (fun _ => vec1)

/-- Lines 106-116: the find branch. Returns the store after the command and the result that
is printed: `none` for the line `null`, otherwise the values that are printed. -/
def findCmd (store : Store) (key : Key) : Store × Option (List Int) :=
  match find store key with
  | none => (store, none)
  | some vec => if vec.isEmpty then (store, none) else (store, some vec)

/-! ## Codec -/

/-- Lines 31-45: the record loop of `load`, with `n` iterations left. -/
def loadLoop : Nat → IStream → Store → Store
  | 0, _, store => store
  | n + 1, fin, store =>
    let r1 := fin.read 2
    if r1.2.failed then store
    else
      let klen := getLE r1.1
      let r2 := if klen ≠ 0 then r1.2.read klen else ([], r1.2)
      let key := r2.1 ++ List.replicate (klen - r2.1.length) 0
      let r3 := r2.2.read 4
      if r3.2.failed then store
      else loadLoop n r3.2 (insert store key (toInt32 (getLE r3.1)))

/-- Lines 21-46: `load`. The argument is the content of the file, `none` when it cannot be
opened. The result is the store after the call (it is cleared first). -/
def load (file : Option (List UInt8)) : Store :=
  match file with
  | none => []
  | some bytes =>
    let r := IStream.read { buf := bytes, failed := false } sizeofHeader
    if r.2.failed then []
    else
      let h := Header.ofBytes r.1
      if h.magic ≠ MAGIC ∨ h.version ≠ VERSION then []
      else loadLoop h.count r.2 []

/-- Lines 62-67: the bytes of one record, for a key and one of its values. -/
def writeRecord (key : Key) (v : Int) : List UInt8 :=
  let klen := (min key.length 65535) % 65536
  putLE 2 klen ++ (if klen ≠ 0 then key.take klen else []) ++ putLE 4 (int32Bits v)

/-- Lines 50-51: `total`, the sum of the vector sizes, as a `uint64_t`. -/
def totalPairs (store : Store) : Nat :=
  (store.foldl (fun total kv => total + kv.2.length) 0) % 18446744073709551616

/-- Lines 48-70: `save` on a writable destination: the content of the file written. -/
def save (store : Store) : List UInt8 :=
  Header.bytes { Header.init with count := totalPairs store }
    ++ store.flatMap (fun kv => kv.2.flatMap (fun v => writeRecord kv.1 v))

/-! ## Invariants -/

/-- Keys of the container are pairwise distinct (it is a map). -/
def UniqueKeys (store : Store) : Prop := (store.map Prod.fst).Nodup

/-- Store invariant: every key present has a non-empty, strictly increasing vector. -/
def StoreInv (store : Store) : Prop :=
  ∀ kv ∈ store, kv.2 ≠ [] ∧ kv.2.Sorted (· < ·)

instance (store : Store) : Decidable (UniqueKeys store) := by
  unfold UniqueKeys; infer_instance

instance (store : Store) : Decidable (StoreInv store) := by
  unfold StoreInv; infer_instance

/-! ## Command loop -/

/-- A command line of the driver: the branch is chosen by the first letter (lines 90-104). -/
inductive Command where
  | insert (key : Key) (v : Int)
  | delete (key : Key) (v : Int)
  | find (key : Key)
  deriving DecidableEq, Repr

/-- One iteration of the loop of lines 88-118: the store afterwards, and the result printed
by a find command (`none` when the command prints nothing). -/
def step (store : Store) : Command → Store × Option (Option (List Int))
  | .insert key v => (insert store key v, none)
  | .delete key v => (delete store key v, none)
  | .find key => ((findCmd store key).1, some (findCmd store key).2)

/-- The store after the whole loop. -/
def run (store : Store) (cmds : List Command) : Store :=
  cmds.foldl (fun s c => (step s c).1) store

/-! ## Records and representable stores -/

/-- The (key, value) pairs of a store, in the order in which `save` writes them. -/
def records (store : Store) : List (Key × Int) :=
  store.flatMap (fun kv => kv.2.map (fun v => (kv.1, v)))

/-- The store is a value of `unordered_map<string, vector<int>>` held in memory: its keys are
pairwise distinct, every value is an `int`, and the number of pairs fits `uint64_t`. -/
def WellTyped (store : Store) : Prop :=
  UniqueKeys store ∧ (∀ kv ∈ store, ∀ v ∈ kv.2, isInt32 v) ∧
    store.foldl (fun total kv => total + kv.2.length) 0 < 18446744073709551616

instance (store : Store) : Decidable (WellTyped store) := by
  unfold WellTyped; infer_instance

/-- Every key fits the 16-bit key-length field of a record. -/
def KeysFit (store : Store) : Prop := ∀ kv ∈ store, kv.1.length ≤ 65535

instance (store : Store) : Decidable (KeysFit store) := by
  unfold KeysFit; infer_instance

/-- A key of 65536 bytes. -/
def longKey : Key := List.replicate 65536 0

/-- The store that maps `longKey` to the single value 7. -/
def longKeyStore : Store := [(longKey, [7])]

/-- The key "bob". -/
def bob : Key := [98, 111, 98]

/-! ## Set view of the store -/

/-- The value `v` is among the values that `store.find(key)` gives. -/
def holds (store : Store) (key : Key) (v : Int) : Prop := v ∈ (find store key).getD []

instance (store : Store) (key : Key) (v : Int) : Decidable (holds store key v) := by
  unfold holds; infer_instance

/-- The command is an insert or a delete of the pair `(key, v)`. -/
def isOpOn (key : Key) (v : Int) (c : Command) : Bool :=
  decide (c = Command.insert key v) || decide (c = Command.delete key v)

/-- The last operation on the pair `(key, v)` in a command sequence, if there is one. -/
def lastOpOn (cmds : List Command) (key : Key) (v : Int) : Option Command :=
  (cmds.filter (isOpOn key v)).getLast?

/-- The sequence contains an operation on the pair `(key, v)` and the last such operation is
an insert. -/
def lastOpIsInsert (cmds : List Command) (key : Key) (v : Int) : Prop :=
  lastOpOn cmds key v = some (Command.insert key v)

instance (cmds : List Command) (key : Key) (v : Int) : Decidable (lastOpIsInsert cmds key v) := by
  unfold lastOpIsInsert; infer_instance

/-- The store obtained by applying the insert branch to the records in order. -/
def replay (store : Store) (recs : List (Key × Int)) : Store :=
  recs.foldl (fun s r => insert s r.1 r.2) store

/-- The bytes of a sequence of records, as the loop of `save` writes them. -/
def writeRecords (recs : List (Key × Int)) : List UInt8 :=
  recs.flatMap (fun r => writeRecord r.1 r.2)

/-- A record in the sense of the file format: the key fits the 16-bit length field and the
value is an `int32_t`. -/
def IsRecord (r : Key × Int) : Prop := r.1.length ≤ 65535 ∧ isInt32 r.2

instance (r : Key × Int) : Decidable (IsRecord r) := by
  unfold IsRecord; infer_instance

/-! ## Driver -/

/-- Lines 111-114: the values printed by the loop from index `j` on, when the values left to
print are the given ones: a space before every value but the one at index 0. -/
def printFrom (j : Nat) : List Int → String
  | [] => ""
  | v :: vs => (if j ≠ 0 then " " else "") ++ toString v ++ printFrom (j + 1) vs

/-- Lines 107-116: the line written to `cout` by the find branch, for its result. -/
def printResult : Option (List Int) → String
  | none => "null\n"
  | some vec => printFrom 0 vec ++ "\n"

/-- What the loop of lines 88-118 writes to `cout`: one string for each command that prints. -/
def outputs : Store → List Command → List String
  | _, [] => []
  | store, c :: cs =>
    match (step store c).2 with
    | none => outputs (step store c).1 cs
    | some r => printResult r :: outputs (step store c).1 cs

/-- Lines 53-69 on a destination file with content `old` (`none`: no file). When the
`ofstream` cannot be opened (`writable = false`) every write fails, `save` returns at line 57
and the file is left as it was. The result is the content of the file after the call; `save`
itself returns `void`. -/
def saveTo (old : Option (List UInt8)) (writable : Bool) (store : Store) :
    Option (List UInt8) :=
  if writable then some (save store) else old

/-- What a run of the program leaves behind: the return value of `main`, what was written to
`cout`, and the content of the file `kv_store.bin`. -/
structure Outcome where
  status : Nat
  out : List String
  file : Option (List UInt8)
  deriving DecidableEq, Repr

/-- Lines 74-122: `main`, for the content of `kv_store.bin` at start, whether the file can be
opened for writing at the end, and the commands on `cin` (`none` when the command count cannot
be read, line 84). -/
def main (file : Option (List UInt8)) (writable : Bool) (input : Option (List Command)) :
    Outcome :=
  let store := load file
  match input with
  | none => { status := 0, out := [], file := file }
  | some cmds =>
    { status := 0, out := outputs store cmds, file := saveTo file writable (run store cmds) }

/-- The key "alice". -/
def alice : Key := [97, 108, 105, 99, 101]

/-- A valid header with `reserved = 1` and `count = 0`. -/
def reservedOneHeader : List UInt8 :=
  Header.bytes { Header.init with reserved := 1 }

/-- The commands `insert alice 5`, `insert alice 3`, `insert alice 5`. -/
def aliceInserts : List Command :=
  [Command.insert alice 5, Command.insert alice 3, Command.insert alice 5]

/-- The commands `delete alice 3`, `delete alice 5`, `find alice`. -/
def aliceDeletes : List Command :=
  [Command.delete alice 3, Command.delete alice 5, Command.find alice]

/-! ## Fixed-width integers: lemmas -/

theorem putLE_length (w x : Nat) : (putLE w x).length = w := by
  induction w generalizing x with
  | zero => rfl
  | succ w ih => simp [putLE, ih]

theorem toNat_ofNat_mod (x : Nat) : (UInt8.ofNat (x % 256)).toNat = x % 256 := by
  show (x % 256) % 256 = x % 256
  exact Nat.mod_mod _ _

theorem getLE_putLE (w x : Nat) : getLE (putLE w x) = x % 256 ^ w := by
  induction w generalizing x with
  | zero => simp [putLE, getLE, Nat.mod_one]
  | succ w ih =>
    simp only [putLE, getLE, ih, toNat_ofNat_mod]
    rw [pow_succ, Nat.mul_comm (256 ^ w) 256, Nat.mod_mul]

theorem getLE_lt (bs : List UInt8) : getLE bs < 256 ^ bs.length := by
  induction bs with
  | nil => simp [getLE]
  | cons b bs ih =>
    have hb : b.toNat < 256 := b.val.isLt
    simp only [getLE, List.length_cons, pow_succ]
    omega

theorem toInt32_int32Bits (v : Int) (hv : isInt32 v) : toInt32 (int32Bits v) = v := by
  unfold isInt32 at hv
  unfold toInt32 int32Bits
  split <;> omega

theorem isInt32_toInt32 (u : Nat) : isInt32 (toInt32 u) := by
  unfold isInt32 toInt32
  split <;> omega

/-! ## Sorted vectors: lemmas -/

theorem sortedInsert_nil (v : Int) : sortedInsert [] v = [v] := by
  simp [sortedInsert, lower_bound]

theorem sortedInsert_cons (x : Int) (xs : List Int) (v : Int) :
    sortedInsert (x :: xs) v =
      if x < v then x :: sortedInsert xs v else if x = v then x :: xs else v :: x :: xs := by
  by_cases h : x < v
  · simp only [sortedInsert, lower_bound, h, if_true, List.length_cons, Nat.add_right_cancel_iff,
      List.get?_cons_succ, List.take_succ_cons, List.drop_succ_cons]
    split <;> simp
  · by_cases h2 : x = v
    · simp [sortedInsert, lower_bound, h, h2]
    · simp [sortedInsert, lower_bound, h, h2]

theorem sortedErase_nil (v : Int) : sortedErase [] v = [] := by
  simp [sortedErase, lower_bound]

theorem sortedErase_cons (x : Int) (xs : List Int) (v : Int) :
    sortedErase (x :: xs) v =
      if x < v then x :: sortedErase xs v else if x = v then xs else x :: xs := by
  by_cases h : x < v
  · simp only [sortedErase, lower_bound, h, if_true, List.length_cons, List.get?_cons_succ,
      List.take_succ_cons, List.drop_succ_cons, ne_eq, Nat.add_right_cancel_iff]
    split <;> simp
  · by_cases h2 : x = v
    · simp [sortedErase, lower_bound, h, h2]
    · simp [sortedErase, lower_bound, h, h2]

theorem sortedInsert_ne_nil (vec : List Int) (v : Int) : sortedInsert vec v ≠ [] := by
  cases vec with
  | nil => simp [sortedInsert_nil]
  | cons x xs =>
    rw [sortedInsert_cons]
    split
    · simp
    · split <;> simp

theorem mem_sortedInsert (vec : List Int) (v x : Int) :
    x ∈ sortedInsert vec v ↔ x = v ∨ x ∈ vec := by
  induction vec with
  | nil => simp [sortedInsert_nil]
  | cons y ys ih =>
    rw [sortedInsert_cons]
    split
    · simp only [List.mem_cons, ih]
      tauto
    · split
      · subst_vars
        simp only [List.mem_cons]
        tauto
      · simp only [List.mem_cons]

theorem sorted_sortedInsert (vec : List Int) (v : Int) (h : vec.Sorted (· < ·)) :
    (sortedInsert vec v).Sorted (· < ·) := by
  induction vec with
  | nil => simp [sortedInsert_nil]
  | cons y ys ih =>
    rw [sortedInsert_cons]
    have hy := List.sorted_cons.mp h
    split
    · rename_i hlt
      refine List.sorted_cons.mpr ⟨?_, ih hy.2⟩
      intro b hb
      rcases (mem_sortedInsert ys v b).mp hb with rfl | hb
      · exact hlt
      · exact hy.1 b hb
    · split
      · exact h
      · rename_i h1 h2
        have hvy : v < y := by omega
        refine List.sorted_cons.mpr ⟨?_, h⟩
        intro b hb
        rcases List.mem_cons.mp hb with rfl | hb
        · exact hvy
        · exact lt_trans hvy (hy.1 b hb)

theorem sortedInsert_append_last (pre : List Int) (v : Int) (h : ∀ x ∈ pre, x < v) :
    sortedInsert pre v = pre ++ [v] := by
  induction pre with
  | nil => simp [sortedInsert_nil]
  | cons y ys ih =>
    rw [sortedInsert_cons, if_pos (h y (List.mem_cons_self _ _)),
      ih (fun x hx => h x (List.mem_cons_of_mem _ hx))]
    rfl

theorem sortedInsert_idem (vec : List Int) (v : Int) :
    sortedInsert (sortedInsert vec v) v = sortedInsert vec v := by
  induction vec with
  | nil => simp [sortedInsert_nil, sortedInsert_cons]
  | cons y ys ih =>
    rw [sortedInsert_cons]
    split
    · rename_i h
      rw [sortedInsert_cons, if_pos h, ih]
    · split
      · rename_i h1 h2
        rw [sortedInsert_cons, if_neg h1, if_pos h2]
      · simp [sortedInsert_cons]

theorem sortedErase_of_not_mem (vec : List Int) (v : Int) (h : v ∉ vec) :
    sortedErase vec v = vec := by
  induction vec with
  | nil => simp [sortedErase_nil]
  | cons y ys ih =>
    rw [sortedErase_cons]
    have h1 : y ≠ v := fun e => h (e ▸ List.mem_cons_self _ _)
    have h2 : v ∉ ys := fun e => h (List.mem_cons_of_mem _ e)
    split
    · rw [ih h2]
    · simp [h1]

theorem sortedErase_eq_erase (vec : List Int) (v : Int) (h : vec.Sorted (· < ·)) :
    sortedErase vec v = vec.erase v := by
  induction vec with
  | nil => simp [sortedErase_nil]
  | cons y ys ih =>
    have hy := List.sorted_cons.mp h
    rw [sortedErase_cons]
    split
    · rename_i hlt
      have hne : y ≠ v := by omega
      rw [ih hy.2, List.erase_cons_tail (by simpa using hne)]
    · split
      · subst_vars
        simp
      · rename_i h1 h2
        have hnot : v ∉ y :: ys := by
          intro hm
          rcases List.mem_cons.mp hm with rfl | hm
          · exact h2 rfl
          · have := hy.1 v hm
            omega
        rw [List.erase_of_not_mem hnot]

theorem sorted_sortedErase (vec : List Int) (v : Int) (h : vec.Sorted (· < ·)) :
    (sortedErase vec v).Sorted (· < ·) := by
  rw [sortedErase_eq_erase vec v h]
  exact List.Pairwise.sublist (List.erase_sublist v vec) h

/-! ## The store: lemmas -/

theorem find_append (s t : Store) (key : Key) :
    find (s ++ t) key = match find s key with
      | some vec => some vec
      | none => find t key := by
  induction s with
  | nil => simp [find]
  | cons e s ih =>
    obtain ⟨k, vec⟩ := e
    by_cases h : k = key
    · simp [find, h]
    · simp [find, h, ih]

theorem mem_of_find (s : Store) (key : Key) (vec : List Int) (h : find s key = some vec) :
    (key, vec) ∈ s := by
  induction s with
  | nil => simp [find] at h
  | cons e s ih =>
    obtain ⟨k, w⟩ := e
    by_cases hk : k = key
    · simp [find, hk] at h
      simp [hk, h]
    · simp [find, hk] at h
      exact List.mem_cons_of_mem _ (ih h)

theorem find_eq_none_iff (s : Store) (key : Key) :
    find s key = none ↔ key ∉ s.map Prod.fst := by
  induction s with
  | nil => simp [find]
  | cons e s ih =>
    obtain ⟨k, w⟩ := e
    by_cases hk : k = key
    · simp [find, hk]
    · simp only [find, hk, if_false, ih, List.map_cons, List.mem_cons, not_or]
      constructor
      · intro h
        exact ⟨fun e => hk e.symm, h⟩
      · intro h
        exact h.2

theorem find_of_mem (s : Store) (key : Key) (vec : List Int) (hu : UniqueKeys s)
    (h : (key, vec) ∈ s) : find s key = some vec := by
  induction s with
  | nil => simp at h
  | cons e s ih =>
    obtain ⟨k, w⟩ := e
    have hu2 := List.nodup_cons.mp hu
    rcases List.mem_cons.mp h with heq | hmem
    · cases heq
      simp [find]
    · have hk : k ≠ key := by
        intro e
        subst e
        exact hu2.1 (List.mem_map.mpr ⟨(k, vec), hmem, rfl⟩)
      simp only [find, hk, if_false]
      exact ih hu2.2 hmem

theorem find_modify_same (s : Store) (key : Key) (f : List Int → List Int) :
    find (modify s key f) key = (find s key).map f := by
  induction s with
  | nil => simp [find, modify]
  | cons e s ih =>
    obtain ⟨k, w⟩ := e
    by_cases hk : k = key
    · simp [find, modify, hk]
    · simp [find, modify, hk, ih]

theorem find_modify_other (s : Store) (key key2 : Key) (f : List Int → List Int)
    (hne : key2 ≠ key) : find (modify s key f) key2 = find s key2 := by
  induction s with
  | nil => simp [find, modify]
  | cons e s ih =>
    obtain ⟨k, w⟩ := e
    by_cases hk : k = key
    · subst hk
      have : k ≠ key2 := fun e => hne e.symm
      simp [find, modify, this]
    · by_cases hk2 : k = key2
      · subst hk2
        simp [find, modify, hk]
      · simp [find, modify, hk, hk2, ih]

theorem modify_fix (s : Store) (key : Key) (f : List Int → List Int)
    (h : ∀ vec, find s key = some vec → f vec = vec) : modify s key f = s := by
  induction s with
  | nil => simp [modify]
  | cons e s ih =>
    obtain ⟨k, w⟩ := e
    by_cases hk : k = key
    · have := h w (by simp [find, hk])
      simp [modify, hk, this]
    · simp only [modify, hk, if_false]
      rw [ih (fun vec hv => h vec (by simpa [find, hk] using hv))]

theorem modify_modify (s : Store) (key : Key) (f g : List Int → List Int) :
    modify (modify s key f) key g = modify s key (g ∘ f) := by
  induction s with
  | nil => simp [modify]
  | cons e s ih =>
    obtain ⟨k, w⟩ := e
    by_cases hk : k = key
    · simp [modify, hk]
    · simp [modify, hk, ih]

theorem keys_modify (s : Store) (key : Key) (f : List Int → List Int) :
    (modify s key f).map Prod.fst = s.map Prod.fst := by
  induction s with
  | nil => simp [modify]
  | cons e s ih =>
    obtain ⟨k, w⟩ := e
    by_cases hk : k = key
    · simp [modify, hk]
    · simp [modify, hk, ih]

theorem find_eraseKey_other (s : Store) (key key2 : Key) (hne : key2 ≠ key) :
    find (eraseKey s key) key2 = find s key2 := by
  induction s with
  | nil => simp [find, eraseKey]
  | cons e s ih =>
    obtain ⟨k, w⟩ := e
    by_cases hk : k = key
    · subst hk
      have : k ≠ key2 := fun e => hne e.symm
      simp [find, eraseKey, this]
    · by_cases hk2 : k = key2
      · subst hk2
        simp [find, eraseKey, hk]
      · simp [find, eraseKey, hk, hk2, ih]

theorem eraseKey_sublist (s : Store) (key : Key) : (eraseKey s key).Sublist s := by
  induction s with
  | nil => simp [eraseKey]
  | cons e s ih =>
    obtain ⟨k, w⟩ := e
    by_cases hk : k = key
    · simp [eraseKey, hk]
    · simp only [eraseKey, hk, if_false]
      exact ih.cons₂ _

theorem find_eraseKey_same (s : Store) (key : Key) (hu : UniqueKeys s) :
    find (eraseKey s key) key = none := by
  induction s with
  | nil => simp [find, eraseKey]
  | cons e s ih =>
    obtain ⟨k, w⟩ := e
    have hu2 := List.nodup_cons.mp hu
    by_cases hk : k = key
    · subst hk
      simp only [eraseKey, if_true]
      exact (find_eq_none_iff s k).mpr hu2.1
    · simp only [eraseKey, hk, if_false, find]
      exact ih hu2.2

theorem subscript_of_find_some (s : Store) (key : Key) (vec : List Int)
    (h : find s key = some vec) : subscript s key = s := by
  simp [subscript, h]

theorem subscript_of_find_none (s : Store) (key : Key) (h : find s key = none) :
    subscript s key = s ++ [(key, [])] := by
  simp [subscript, h]

theorem find_subscript_same (s : Store) (key : Key) :
    find (subscript s key) key = some ((find s key).getD []) := by
  cases h : find s key with
  | none => simp [subscript, h, find_append, find]
  | some vec => simp [subscript, h]

theorem find_subscript_other (s : Store) (key key2 : Key) (hne : key2 ≠ key) :
    find (subscript s key) key2 = find s key2 := by
  cases h : find s key with
  | none =>
    have : key ≠ key2 := fun e => hne e.symm
    simp only [subscript, h, find_append, find, this, if_false]
    cases find s key2 <;> rfl
  | some vec => simp [subscript, h]

theorem find_insert_same (s : Store) (key : Key) (v : Int) :
    find (insert s key v) key = some (sortedInsert ((find s key).getD []) v) := by
  simp [insert, find_modify_same, find_subscript_same]

theorem find_insert_other (s : Store) (key key2 : Key) (v : Int) (hne : key2 ≠ key) :
    find (insert s key v) key2 = find s key2 := by
  simp [insert, find_modify_other _ _ _ _ hne, find_subscript_other _ _ _ hne]

theorem mem_modify (s : Store) (key : Key) (f : List Int → List Int) (e : Key × List Int)
    (h : e ∈ modify s key f) : e ∈ s ∨ ∃ vec, find s key = some vec ∧ e = (key, f vec) := by
  induction s with
  | nil => simp [modify] at h
  | cons e0 s ih =>
    obtain ⟨k, w⟩ := e0
    by_cases hk : k = key
    · subst hk
      simp only [modify, if_true, List.mem_cons] at h
      rcases h with h | h
      · exact Or.inr ⟨w, by simp [find], h⟩
      · exact Or.inl (List.mem_cons_of_mem _ h)
    · simp only [modify, hk, if_false, List.mem_cons] at h
      rcases h with h | h
      · exact Or.inl (h ▸ List.mem_cons_self _ _)
      · rcases ih h with h | ⟨vec, hv, he⟩
        · exact Or.inl (List.mem_cons_of_mem _ h)
        · exact Or.inr ⟨vec, by simpa [find, hk] using hv, he⟩

theorem storeInv_entry (s : Store) (key : Key) (vec : List Int) (hinv : StoreInv s)
    (h : find s key = some vec) : vec ≠ [] ∧ vec.Sorted (· < ·) :=
  hinv (key, vec) (mem_of_find s key vec h)

theorem modify_append_of_find_none (s t : Store) (key : Key) (f : List Int → List Int)
    (h : find s key = none) : modify (s ++ t) key f = s ++ modify t key f := by
  induction s with
  | nil => rfl
  | cons e0 s ih =>
    obtain ⟨k, w⟩ := e0
    by_cases hk : k = key
    · simp [find, hk] at h
    · simp only [find, hk, if_false] at h
      simp [modify, hk, ih h]

theorem insert_of_find_none (s : Store) (key : Key) (v : Int) (h : find s key = none) :
    insert s key v = s ++ [(key, [v])] := by
  rw [insert, subscript_of_find_none s key h, modify_append_of_find_none s _ key _ h]
  simp [modify, sortedInsert_nil]

theorem insert_of_find_some (s : Store) (key : Key) (v : Int) (vec : List Int)
    (h : find s key = some vec) :
    insert s key v = modify s key (fun vec => sortedInsert vec v) := by
  rw [insert, subscript_of_find_some s key vec h]

theorem storeInv_modify (s : Store) (key : Key) (f : List Int → List Int) (hinv : StoreInv s)
    (hf : ∀ vec, find s key = some vec → f vec ≠ [] ∧ (f vec).Sorted (· < ·)) :
    StoreInv (modify s key f) := by
  intro e he
  rcases mem_modify _ _ _ _ he with h | ⟨vec, hv, rfl⟩
  · exact hinv e h
  · exact hf vec hv

theorem storeInv_insert (s : Store) (key : Key) (v : Int) (hinv : StoreInv s) :
    StoreInv (insert s key v) := by
  cases hf : find s key with
  | none =>
    rw [insert_of_find_none s key v hf]
    intro e he
    rcases List.mem_append.mp he with h | h
    · exact hinv e h
    · simp only [List.mem_singleton] at h
      subst h
      simp
  | some vec0 =>
    rw [insert_of_find_some s key v vec0 hf]
    refine storeInv_modify s key _ hinv ?_
    intro vec hv
    exact ⟨sortedInsert_ne_nil _ _, sorted_sortedInsert _ _ (storeInv_entry s key vec hinv hv).2⟩

theorem storeInv_delete (s : Store) (key : Key) (v : Int) (hinv : StoreInv s) :
    StoreInv (delete s key v) := by
  unfold delete
  cases hf : find s key with
  | none => exact hinv
  | some vec0 =>
    simp only
    split
    · intro e he
      exact hinv e ((eraseKey_sublist s key).subset he)
    · rename_i hne
      refine storeInv_modify s key _ hinv ?_
      intro vec _
      refine ⟨?_, sorted_sortedErase _ _ (storeInv_entry s key vec0 hinv hf).2⟩
      intro h
      exact hne (by simp [h])

theorem uniqueKeys_insert (s : Store) (key : Key) (v : Int) (hu : UniqueKeys s) :
    UniqueKeys (insert s key v) := by
  cases hf : find s key with
  | none =>
    rw [insert_of_find_none s key v hf]
    unfold UniqueKeys at *
    rw [List.map_append, List.nodup_append]
    refine ⟨hu, by simp, ?_⟩
    intro a ha hb
    simp only [List.map_cons, List.map_nil, List.mem_singleton] at hb
    subst hb
    exact (find_eq_none_iff s a).mp hf ha
  | some vec0 =>
    rw [insert_of_find_some s key v vec0 hf]
    unfold UniqueKeys at *
    rw [keys_modify]
    exact hu

theorem uniqueKeys_delete (s : Store) (key : Key) (v : Int) (hu : UniqueKeys s) :
    UniqueKeys (delete s key v) := by
  unfold delete
  cases hf : find s key with
  | none => exact hu
  | some vec0 =>
    simp only
    split
    · exact List.Nodup.sublist ((eraseKey_sublist s key).map Prod.fst) hu
    · unfold UniqueKeys at *
      rw [keys_modify]
      exact hu

theorem storeInv_run (s : Store) (cmds : List Command) (hinv : StoreInv s) :
    StoreInv (run s cmds) := by
  induction cmds generalizing s with
  | nil => exact hinv
  | cons c cmds ih =>
    apply ih
    cases c with
    | insert key v => exact storeInv_insert s key v hinv
    | delete key v => exact storeInv_delete s key v hinv
    | find key =>
      show StoreInv (findCmd s key).1
      unfold findCmd
      split
      · exact hinv
      · split <;> exact hinv

theorem uniqueKeys_run (s : Store) (cmds : List Command) (hu : UniqueKeys s) :
    UniqueKeys (run s cmds) := by
  induction cmds generalizing s with
  | nil => exact hu
  | cons c cmds ih =>
    apply ih
    cases c with
    | insert key v => exact uniqueKeys_insert s key v hu
    | delete key v => exact uniqueKeys_delete s key v hu
    | find key =>
      show UniqueKeys (findCmd s key).1
      unfold findCmd
      split
      · exact hu
      · split <;> exact hu

/-! ## Store operations: the claims -/

/-- C3. The store invariant (every key present has a non-empty, strictly increasing value
sequence) holds for the empty store and is preserved by every insert and every delete; hence
after any sequence of commands applied to the empty store, `find` on a present key gives a
non-empty, strictly ascending, duplicate-free sequence. -/
theorem storeInv_invariant :
    StoreInv [] ∧
    (∀ (s : Store) (key : Key) (v : Int), StoreInv s → StoreInv (insert s key v)) ∧
    (∀ (s : Store) (key : Key) (v : Int), StoreInv s → StoreInv (delete s key v)) ∧
    (∀ (cmds : List Command) (key : Key) (vec : List Int),
      find (run [] cmds) key = some vec →
        vec ≠ [] ∧ vec.Sorted (· < ·) ∧ vec.Nodup) := by
  refine ⟨by simp [StoreInv], storeInv_insert, storeInv_delete, ?_⟩
  intro cmds key vec h
  have hinv : StoreInv (run [] cmds) := storeInv_run [] cmds (by simp [StoreInv])
  obtain ⟨h1, h2⟩ := storeInv_entry _ key vec hinv h
  exact ⟨h1, h2, h2.imp (fun hab => ne_of_lt hab)⟩

/-- C5. In a state satisfying the invariants, after `insert key v` the key is present, its
sequence is strictly ascending and holds exactly the old values of the key (none if it was
absent) together with `v`, and `find` on every other key is unchanged. -/
theorem insert_postcondition (s : Store) (key : Key) (v : Int) (hinv : StoreInv s) :
    (∃ vec, find (insert s key v) key = some vec ∧ vec.Sorted (· < ·) ∧
      ∀ x, x ∈ vec ↔ x = v ∨ x ∈ (find s key).getD []) ∧
    ∀ key2, key2 ≠ key → find (insert s key v) key2 = find s key2 := by
  refine ⟨⟨_, find_insert_same s key v, ?_, fun x => mem_sortedInsert _ v x⟩,
    fun key2 hne => find_insert_other s key key2 v hne⟩
  apply sorted_sortedInsert
  cases hf : find s key with
  | none => simp
  | some vec0 => exact (storeInv_entry s key vec0 hinv hf).2

/-- Witness for C5: inserting 3 under the key "a" that holds 1, 5. -/
theorem insert_postcondition_witness :
    (∃ vec, find (insert [([97], [1, 5])] [97] 3) [97] = some vec ∧ vec.Sorted (· < ·) ∧
      ∀ x, x ∈ vec ↔ x = 3 ∨ x ∈ (find [([97], [1, 5])] [97]).getD []) ∧
    ∀ key2, key2 ≠ [97] → find (insert [([97], [1, 5])] [97] 3) key2
      = find [([97], [1, 5])] key2 :=
  insert_postcondition [([97], [1, 5])] [97] 3 (by decide)

/-- C7. In a state satisfying the invariants (the precondition of `lower_bound`), inserting
the same key and value twice gives exactly the state obtained by inserting it once. -/
theorem insert_idempotent (s : Store) (key : Key) (v : Int) (_hinv : StoreInv s) :
    insert (insert s key v) key v = insert s key v := by
  have h1 := find_insert_same s key v
  rw [insert_of_find_some (insert s key v) key v _ h1]
  apply modify_fix
  intro vec hv
  rw [h1] at hv
  cases hv
  exact sortedInsert_idem _ v

/-- Witness for C7: inserting 3 twice under the key "a" that holds 1, 5. -/
theorem insert_idempotent_witness :
    insert (insert [([97], [1, 5])] [97] 3) [97] 3 = insert [([97], [1, 5])] [97] 3 :=
  insert_idempotent [([97], [1, 5])] [97] 3 (by decide)

/-- C6. In a state satisfying the invariants, `delete key v` leaves the state unchanged when
the key is absent or `v` is not among its values; otherwise the key is removed when `v` was
its only value, and else holds its old values without `v`, in their old order; `find` on every
other key is unchanged. -/
theorem delete_postcondition (s : Store) (key : Key) (v : Int) (hu : UniqueKeys s)
    (hinv : StoreInv s) :
    ((find s key = none ∨ ∃ vec, find s key = some vec ∧ v ∉ vec) → delete s key v = s) ∧
    (∀ vec, find s key = some vec → v ∈ vec →
      find (delete s key v) key
        = if vec = [v] then none else some (vec.filter (fun x => x ≠ v))) ∧
    ∀ key2, key2 ≠ key → find (delete s key v) key2 = find s key2 := by
  refine ⟨?_, ?_, ?_⟩
  · rintro (h | ⟨vec, h, hv⟩)
    · simp [delete, h]
    · have hne := (storeInv_entry s key vec hinv h).1
      simp only [delete, h, sortedErase_of_not_mem vec v hv]
      rw [if_neg (by simpa using hne)]
      exact modify_fix s key _ (fun w hw => by rw [h] at hw; cases hw; rfl)
  · intro vec h hv
    have hs := (storeInv_entry s key vec hinv h).2
    have hnd : vec.Nodup := hs.imp (fun hab => ne_of_lt hab)
    simp only [delete, h, sortedErase_eq_erase vec v hs]
    by_cases hone : vec = [v]
    · subst hone
      simp only [List.erase_cons_head, List.isEmpty_nil, if_true]
      exact find_eraseKey_same s key hu
    · have hne : vec.erase v ≠ [] := by
        intro he
        have hlen := List.length_erase_of_mem hv
        rw [he] at hlen
        have h1 : vec.length = 1 := by
          have := List.length_pos_of_mem hv
          simp only [List.length_nil] at hlen
          omega
        obtain ⟨a, ha⟩ := List.length_eq_one.mp h1
        subst ha
        simp only [List.mem_singleton] at hv
        exact hone (by rw [hv])
      rw [if_neg (by simpa using hne), if_neg hone, find_modify_same, h]
      simp only [Option.map_some']
      rw [List.Nodup.erase_eq_filter hnd]
      congr 2
      funext x
      by_cases hx : x = v <;> simp [hx]
  · intro key2 hne
    unfold delete
    cases hf : find s key with
    | none => rfl
    | some vec0 =>
      simp only
      split
      · exact find_eraseKey_other s key key2 hne
      · exact find_modify_other s key key2 _ hne

/-- Witness for C6: deleting 5 under the key "a" that holds 1, 5. -/
theorem delete_postcondition_witness :
    ((find [([97], [1, 5])] [97] = none ∨
        ∃ vec, find [([97], [1, 5])] [97] = some vec ∧ (5 : Int) ∉ vec) →
      delete [([97], [1, 5])] [97] 5 = [([97], [1, 5])]) ∧
    (∀ vec, find [([97], [1, 5])] [97] = some vec → (5 : Int) ∈ vec →
      find (delete [([97], [1, 5])] [97] 5) [97]
        = if vec = [5] then none else some (vec.filter (fun x => x ≠ 5))) ∧
    ∀ key2, key2 ≠ [97] → find (delete [([97], [1, 5])] [97] 5) key2
      = find [([97], [1, 5])] key2 :=
  delete_postcondition [([97], [1, 5])] [97] 5 (by decide) (by decide)

/-! ## Codec: lemmas -/

theorem read_append (a rest : List UInt8) (n : Nat) (h : a.length = n) :
    IStream.read { buf := a ++ rest, failed := false } n
      = (a, { buf := rest, failed := false }) := by
  subst h
  simp [IStream.read]

theorem read_short (buf : List UInt8) (n : Nat) (h : buf.length < n) :
    (IStream.read { buf := buf, failed := false } n).2.failed = true := by
  simp [IStream.read, Nat.not_le.mpr h]

theorem read_failed (s : IStream) (n : Nat) (h : s.failed = true) :
    (IStream.read s n).2.failed = true := by
  simp [IStream.read, h]

theorem writeRecord_eq (key : Key) (v : Int) (hk : key.length ≤ 65535) :
    writeRecord key v = putLE 2 key.length ++ key ++ putLE 4 (int32Bits v) := by
  unfold writeRecord
  have h1 : min key.length 65535 % 65536 = key.length := by
    rw [Nat.min_eq_left hk]
    omega
  simp only [h1]
  by_cases h0 : key.length = 0
  · have : key = [] := List.length_eq_zero.mp h0
    subst this
    simp
  · simp [h0]

theorem writeRecord_take (key : Key) (v : Int) :
    writeRecord key v = writeRecord (key.take 65535) v := by
  unfold writeRecord
  simp only [List.length_take, List.take_take]
  have h1 : min (min 65535 key.length) 65535 = min key.length 65535 := by omega
  have h2 : min (min key.length 65535 % 65536) 65535 = min key.length 65535 % 65536 := by omega
  rw [h1, h2]

theorem loadLoop_record (n : Nat) (key : Key) (v : Int) (rest : List UInt8) (store : Store)
    (hk : key.length ≤ 65535) (hv : isInt32 v) :
    loadLoop (n + 1) { buf := writeRecord key v ++ rest, failed := false } store
      = loadLoop n { buf := rest, failed := false } (insert store key v) := by
  rw [writeRecord_eq key v hk, loadLoop]
  simp only [List.append_assoc]
  rw [read_append _ _ 2 (putLE_length 2 _)]
  have hg : getLE (putLE 2 key.length) = key.length := by
    rw [getLE_putLE]
    omega
  simp only [hg, Bool.false_eq_true, if_false]
  by_cases h0 : key.length = 0
  · have : key = [] := List.length_eq_zero.mp h0
    subst this
    simp only [List.length_nil, ne_eq, not_true_eq_false, if_false, List.nil_append,
      Nat.sub_self, List.replicate_zero]
    rw [read_append _ _ 4 (putLE_length 4 _)]
    simp only [Bool.false_eq_true, if_false, getLE_putLE]
    have : int32Bits v % 256 ^ 4 = int32Bits v := by
      unfold int32Bits isInt32 at *
      omega
    rw [this, toInt32_int32Bits v hv]
  · simp only [ne_eq, h0, not_false_eq_true, if_true]
    rw [read_append _ _ key.length rfl]
    simp only [Nat.sub_self, List.replicate_zero, List.append_nil]
    rw [read_append _ _ 4 (putLE_length 4 _)]
    simp only [Bool.false_eq_true, if_false, getLE_putLE]
    have : int32Bits v % 256 ^ 4 = int32Bits v := by
      unfold int32Bits isInt32 at *
      omega
    rw [this, toInt32_int32Bits v hv]

theorem loadLoop_records (recs : List (Key × Int)) (m : Nat) (rest : List UInt8)
    (store : Store) (hk : ∀ r ∈ recs, r.1.length ≤ 65535) (hv : ∀ r ∈ recs, isInt32 r.2) :
    loadLoop (recs.length + m)
        { buf := recs.flatMap (fun r => writeRecord r.1 r.2) ++ rest, failed := false } store
      = loadLoop m { buf := rest, failed := false }
          (recs.foldl (fun s r => insert s r.1 r.2) store) := by
  induction recs generalizing store with
  | nil => simp
  | cons r recs ih =>
    have hlen : (r :: recs).length + m = (recs.length + m) + 1 := by
      simp only [List.length_cons]
      omega
    rw [hlen, List.flatMap_cons, List.append_assoc,
      loadLoop_record _ r.1 r.2 _ store (hk r (List.mem_cons_self _ _))
        (hv r (List.mem_cons_self _ _))]
    rw [ih _ (fun x hx => hk x (List.mem_cons_of_mem _ hx))
      (fun x hx => hv x (List.mem_cons_of_mem _ hx))]
    rfl

theorem loadLoop_incomplete (m : Nat) (tail : List UInt8) (store : Store)
    (h : tail.length < 2 ∨ tail.length < 2 + getLE (tail.take 2) + 4) :
    loadLoop m { buf := tail, failed := false } store = store := by
  cases m with
  | zero => rfl
  | succ n =>
    rw [loadLoop]
    by_cases h2 : tail.length < 2
    · simp [read_short tail 2 h2]
    · have h2le : 2 ≤ tail.length := Nat.le_of_not_lt h2
      have hlt : tail.length < 2 + getLE (tail.take 2) + 4 := by
        rcases h with h | h
        · exact absurd h h2
        · exact h
      have hr1 : IStream.read { buf := tail, failed := false } 2
          = (tail.take 2, { buf := tail.drop 2, failed := false }) := by
        simp [IStream.read, h2le]
      simp only [hr1, Bool.false_eq_true, if_false]
      have hfail : (IStream.read
          (if getLE (tail.take 2) ≠ 0
            then IStream.read { buf := tail.drop 2, failed := false } (getLE (tail.take 2))
            else ([], { buf := tail.drop 2, failed := false })).2 4).2.failed = true := by
        by_cases h0 : getLE (tail.take 2) = 0
        · simp only [h0, ne_eq, not_true_eq_false, if_false]
          apply read_short
          simp only [List.length_drop]
          omega
        · simp only [ne_eq, h0, not_false_eq_true, if_true]
          by_cases hfit : getLE (tail.take 2) ≤ (tail.drop 2).length
          · have : IStream.read { buf := tail.drop 2, failed := false } (getLE (tail.take 2))
                = ((tail.drop 2).take (getLE (tail.take 2)),
                    { buf := (tail.drop 2).drop (getLE (tail.take 2)), failed := false }) := by
              simp only [IStream.read, hfit, Bool.false_eq_true, if_false, if_true]
            rw [this]
            apply read_short
            simp only [List.length_drop] at hfit ⊢
            omega
          · apply read_failed
            apply read_short
            exact Nat.lt_of_not_le hfit
      rw [if_pos hfail]

theorem writeRecord_length (key : Key) (v : Int) (hk : key.length ≤ 65535) :
    (writeRecord key v).length = 2 + key.length + 4 := by
  rw [writeRecord_eq key v hk]
  simp only [List.length_append, putLE_length]

theorem incomplete_of_strict_initial (tail : List UInt8) (key : Key) (v : Int)
    (hk : key.length ≤ 65535) (hp : tail <+: writeRecord key v)
    (hlt : tail.length < (writeRecord key v).length) :
    tail.length < 2 ∨ tail.length < 2 + getLE (tail.take 2) + 4 := by
  by_cases h2 : tail.length < 2
  · exact Or.inl h2
  · right
    have h2le : 2 ≤ tail.length := Nat.le_of_not_lt h2
    obtain ⟨t, ht⟩ := hp
    have htake : tail.take 2 = putLE 2 key.length := by
      have h1 : (writeRecord key v).take 2 = tail.take 2 := by
        rw [← ht, List.take_append_of_le_length h2le]
      rw [← h1, writeRecord_eq key v hk, List.append_assoc,
        List.take_append_of_le_length (by rw [putLE_length]),
        List.take_of_length_le (by rw [putLE_length])]
    rw [htake, getLE_putLE]
    rw [writeRecord_length key v hk] at hlt
    have : key.length % 256 ^ 2 = key.length := by omega
    omega

theorem headerBytes_init (c : Nat) :
    Header.bytes { Header.init with count := c }
      = [84, 83, 86, 75, 1, 0, 0, 0, 0, 0, 0, 0, 0, 0, 0, 0] ++ putLE 8 c := by
  have h : putLE 4 MAGIC ++ putLE 4 VERSION ++ putLE 4 0 ++ List.replicate headerPadding 0
      = [84, 83, 86, 75, 1, 0, 0, 0, 0, 0, 0, 0, 0, 0, 0, 0] := by
    decide
  show putLE 4 MAGIC ++ putLE 4 VERSION ++ putLE 4 0 ++ List.replicate headerPadding 0
      ++ putLE 8 c = _
  rw [h]

theorem headerBytes_length (h : Header) : (Header.bytes h).length = sizeofHeader := by
  simp [Header.bytes, putLE_length, sizeofHeader, headerPadding]

theorem load_header (c : Nat) (body : List UInt8) (hc : c < 18446744073709551616) :
    load (some (Header.bytes { Header.init with count := c } ++ body))
      = loadLoop c { buf := body, failed := false } [] := by
  unfold load
  simp only
  rw [read_append _ _ sizeofHeader (headerBytes_length _), headerBytes_init]
  have hm : (Header.ofBytes ([84, 83, 86, 75, 1, 0, 0, 0, 0, 0, 0, 0, 0, 0, 0, 0]
      ++ putLE 8 c)).magic = MAGIC := by
    simp only [Header.ofBytes, List.take, List.cons_append, getLE, MAGIC]
    decide
  have hver : (Header.ofBytes ([84, 83, 86, 75, 1, 0, 0, 0, 0, 0, 0, 0, 0, 0, 0, 0]
      ++ putLE 8 c)).version = VERSION := by
    simp only [Header.ofBytes, List.take, List.drop, List.cons_append, getLE, VERSION]
    decide
  have hcnt : (Header.ofBytes ([84, 83, 86, 75, 1, 0, 0, 0, 0, 0, 0, 0, 0, 0, 0, 0]
      ++ putLE 8 c)).count = c := by
    show getLE (List.take 8 (putLE 8 c)) = c
    rw [List.take_of_length_le (by rw [putLE_length]), getLE_putLE]
    omega
  simp only [hm, hver, hcnt, Bool.false_eq_true, if_false, ne_eq, not_true_eq_false, or_self]

theorem records_cons (k : Key) (vs : List Int) (rest : Store) :
    records ((k, vs) :: rest) = vs.map (fun v => (k, v)) ++ records rest := by
  simp [records]

theorem flatMap_records (s : Store) :
    (records s).flatMap (fun r => writeRecord r.1 r.2)
      = s.flatMap (fun kv => kv.2.flatMap (fun v => writeRecord kv.1 v)) := by
  induction s with
  | nil => rfl
  | cons e s ih =>
    obtain ⟨k, vs⟩ := e
    rw [records_cons, List.flatMap_append, ih, List.flatMap_cons]
    congr 1
    induction vs with
    | nil => rfl
    | cons v vs ihv => simp [List.flatMap_cons, ihv]

theorem foldl_sizes (s : Store) (a : Nat) :
    s.foldl (fun total kv => total + kv.2.length) a = a + (records s).length := by
  induction s generalizing a with
  | nil => simp [records]
  | cons e s ih =>
    obtain ⟨k, vs⟩ := e
    rw [List.foldl_cons, ih, records_cons]
    simp only [List.length_append, List.length_map]
    omega

theorem save_eq (s : Store) :
    save s = Header.bytes { Header.init with count := totalPairs s }
      ++ (records s).flatMap (fun r => writeRecord r.1 r.2) := by
  rw [flatMap_records]
  rfl

theorem replay_values (m1 : Store) (key : Key) (pre vs : List Int)
    (hnone : find m1 key = none) (hs : (pre ++ vs).Sorted (· < ·)) :
    vs.foldl (fun s v => insert s key v) (m1 ++ [(key, pre)]) = m1 ++ [(key, pre ++ vs)] := by
  induction vs generalizing pre with
  | nil => simp
  | cons v vs ih =>
    have hfind : find (m1 ++ [(key, pre)]) key = some pre := by
      rw [find_append, hnone]
      simp [find]
    have hlt : ∀ x ∈ pre, x < v := by
      intro x hx
      have := List.pairwise_append.mp hs
      exact this.2.2 x hx v (List.mem_cons_self _ _)
    rw [List.foldl_cons, insert_of_find_some _ key v pre hfind,
      modify_append_of_find_none m1 _ key _ hnone]
    simp only [modify, if_true]
    rw [sortedInsert_append_last pre v hlt, ih (pre ++ [v]) (by simpa using hs)]
    simp

theorem replay_records (m1 m2 : Store) (hu : UniqueKeys (m1 ++ m2)) (hinv : StoreInv m2) :
    (records m2).foldl (fun s r => insert s r.1 r.2) m1 = m1 ++ m2 := by
  induction m2 generalizing m1 with
  | nil => simp [records]
  | cons e m2 ih =>
    obtain ⟨k, vs⟩ := e
    have he := hinv (k, vs) (List.mem_cons_self _ _)
    have hnone : find m1 k = none := by
      rw [find_eq_none_iff]
      unfold UniqueKeys at hu
      rw [List.map_append, List.nodup_append] at hu
      intro hmem
      exact hu.2.2 hmem (by simp)
    rw [records_cons, List.foldl_append, List.foldl_map]
    have hstep : vs.foldl (fun s v => insert s k v) m1 = m1 ++ [(k, vs)] := by
      cases vs with
      | nil => exact absurd rfl he.1
      | cons v vs =>
        rw [List.foldl_cons, insert_of_find_none m1 k v hnone,
          replay_values m1 k [v] vs hnone he.2]
        rfl
    rw [hstep, ih (m1 ++ [(k, vs)]) (by simpa using hu)
      (fun kv hkv => hinv kv (List.mem_cons_of_mem _ hkv))]
    simp

theorem records_key_mem (s : Store) (r : Key × Int) (h : r ∈ records s) :
    ∃ kv ∈ s, kv.1 = r.1 ∧ r.2 ∈ kv.2 := by
  simp only [records, List.mem_flatMap, List.mem_map] at h
  obtain ⟨kv, hkv, v, hv, rfl⟩ := h
  exact ⟨kv, hkv, rfl, hv⟩

theorem load_save (m : Store) (ht : WellTyped m) (hinv : StoreInv m) (hfit : KeysFit m) :
    load (some (save m)) = m := by
  obtain ⟨hu, hval, htot⟩ := ht
  have hcount : totalPairs m = (records m).length := by
    unfold totalPairs
    rw [Nat.mod_eq_of_lt htot, foldl_sizes, Nat.zero_add]
  rw [save_eq, load_header _ _ (by unfold totalPairs; exact Nat.mod_lt _ (by decide)), hcount]
  have h := loadLoop_records (records m) 0 [] []
    (fun r hr => by
      obtain ⟨kv, hkv, h1, _⟩ := records_key_mem m r hr
      rw [← h1]
      exact hfit kv hkv)
    (fun r hr => by
      obtain ⟨kv, hkv, _, h2⟩ := records_key_mem m r hr
      exact hval kv hkv r.2 h2)
  simp only [Nat.add_zero, List.append_nil] at h
  rw [h, loadLoop, replay_records [] m (by simpa using hu) hinv]
  rfl

theorem loadLoop_succ_cases (n : Nat) (fin : IStream) (store : Store) :
    loadLoop (n + 1) fin store = store ∨
      ∃ fin2 key v, loadLoop (n + 1) fin store = loadLoop n fin2 (insert store key v) := by
  rw [loadLoop]
  by_cases h1 : (fin.read 2).2.failed = true
  · left
    simp only [h1, if_true]
  · simp only [h1, if_false]
    by_cases h0 : getLE (fin.read 2).1 = 0
    · simp only [h0, ne_eq, not_true_eq_false, if_false]
      by_cases h3 : (IStream.read (fin.read 2).2 4).2.failed = true
      · left
        simp only [h3, if_true, Bool.false_eq_true, if_false]
      · right
        simp only [h3, if_false]
        exact ⟨_, _, _, rfl⟩
    · simp only [ne_eq, h0, not_false_eq_true, if_true]
      by_cases h3 : (IStream.read (IStream.read (fin.read 2).2 (getLE (fin.read 2).1)).2 4).2.failed
          = true
      · left
        simp only [h3, if_true, Bool.false_eq_true, if_false]
      · right
        simp only [h3, if_false]
        exact ⟨_, _, _, rfl⟩

theorem storeInv_loadLoop (n : Nat) (fin : IStream) (store : Store) (h : StoreInv store) :
    StoreInv (loadLoop n fin store) := by
  induction n generalizing fin store with
  | zero => exact h
  | succ n ih =>
    rcases loadLoop_succ_cases n fin store with h1 | ⟨fin2, key, v, h1⟩
    · rw [h1]
      exact h
    · rw [h1]
      exact ih _ _ (storeInv_insert _ _ _ h)

theorem uniqueKeys_loadLoop (n : Nat) (fin : IStream) (store : Store) (h : UniqueKeys store) :
    UniqueKeys (loadLoop n fin store) := by
  induction n generalizing fin store with
  | zero => exact h
  | succ n ih =>
    rcases loadLoop_succ_cases n fin store with h1 | ⟨fin2, key, v, h1⟩
    · rw [h1]
      exact h
    · rw [h1]
      exact ih _ _ (uniqueKeys_insert _ _ _ h)

theorem load_valid_header (hdr body : List UInt8) (hlen : hdr.length = sizeofHeader)
    (hm : (Header.ofBytes hdr).magic = MAGIC) (hver : (Header.ofBytes hdr).version = VERSION) :
    load (some (hdr ++ body))
      = loadLoop (Header.ofBytes hdr).count { buf := body, failed := false } [] := by
  unfold load
  simp only
  rw [read_append _ _ sizeofHeader hlen]
  simp [hm, hver]

theorem load_cases (file : Option (List UInt8)) :
    load file = [] ∨ ∃ n fin, load file = loadLoop n fin [] := by
  unfold load
  cases file with
  | none => exact Or.inl rfl
  | some bytes =>
    simp only
    split
    · exact Or.inl rfl
    · split
      · exact Or.inl rfl
      · exact Or.inr ⟨_, _, rfl⟩

/-! ## Codec: the claims -/

/-- C4. For every file content, and for an absent file, `load` returns a store that satisfies
the store invariant: every entry has a non-empty, strictly increasing value sequence (so a
truncated record leaves no key with an empty sequence), and `find` on any key of the result
gives such a sequence. -/
theorem load_storeInv (file : Option (List UInt8)) :
    StoreInv (load file) ∧
    ∀ key vec, find (load file) key = some vec → vec ≠ [] ∧ vec.Sorted (· < ·) := by
  have h : StoreInv (load file) := by
    rcases load_cases file with h | ⟨n, fin, h⟩
    · rw [h]
      simp [StoreInv]
    · rw [h]
      exact storeInv_loadLoop n fin [] (by simp [StoreInv])
  exact ⟨h, fun key vec hf => storeInv_entry _ key vec h hf⟩

/-- C9. `load` returns the empty store when the file is absent, when it is shorter than a
header (the empty file included), when the magic of the header differs from `MAGIC`, and when
its version differs from `VERSION`, whatever bytes follow the header. -/
theorem load_unrecognized :
    load none = [] ∧
    load (some []) = [] ∧
    (∀ bytes : List UInt8, bytes.length < sizeofHeader → load (some bytes) = []) ∧
    (∀ hdr rest : List UInt8, hdr.length = sizeofHeader →
      (Header.ofBytes hdr).magic ≠ MAGIC → load (some (hdr ++ rest)) = []) ∧
    (∀ hdr rest : List UInt8, hdr.length = sizeofHeader →
      (Header.ofBytes hdr).version ≠ VERSION → load (some (hdr ++ rest)) = []) := by
  refine ⟨rfl, rfl, ?_, ?_, ?_⟩
  · intro bytes h
    unfold load
    simp only
    rw [if_pos (read_short bytes sizeofHeader h)]
  · intro hdr rest hlen hm
    unfold load
    simp only
    rw [read_append _ _ sizeofHeader hlen]
    simp [hm]
  · intro hdr rest hlen hver
    unfold load
    simp only
    rw [read_append _ _ sizeofHeader hlen]
    simp [hver]

/-- C10. A snapshot with a valid header announcing more records than the `j` complete records
that follow it, and ending in a strict initial segment of one more record (possibly empty, or
cut inside the key length, the key bytes or the value), loads to the store obtained by
inserting the `j` complete records in order into the empty store, which is also what the
snapshot of exactly these `j` records loads to. -/
theorem load_truncated (hdr : List UInt8) (recs : List (Key × Int)) (tail : List UInt8)
    (key : Key) (v : Int)
    (hlen : hdr.length = sizeofHeader) (hm : (Header.ofBytes hdr).magic = MAGIC)
    (hver : (Header.ofBytes hdr).version = VERSION)
    (hcount : recs.length < (Header.ofBytes hdr).count)
    (hk : ∀ r ∈ recs, r.1.length ≤ 65535) (hv : ∀ r ∈ recs, isInt32 r.2)
    (hkey : key.length ≤ 65535) (hp : tail <+: writeRecord key v)
    (hlt : tail.length < (writeRecord key v).length) :
    load (some (hdr ++ (recs.flatMap (fun r => writeRecord r.1 r.2) ++ tail)))
        = recs.foldl (fun s r => insert s r.1 r.2) [] ∧
    load (some (hdr ++ (recs.flatMap (fun r => writeRecord r.1 r.2) ++ tail)))
        = load (some (Header.bytes { Header.init with count := recs.length }
            ++ recs.flatMap (fun r => writeRecord r.1 r.2))) := by
  have hfirst : load (some (hdr ++ (recs.flatMap (fun r => writeRecord r.1 r.2) ++ tail)))
      = recs.foldl (fun s r => insert s r.1 r.2) [] := by
    rw [load_valid_header hdr _ hlen hm hver]
    have hsplit : (Header.ofBytes hdr).count
        = recs.length + ((Header.ofBytes hdr).count - recs.length) := by omega
    rw [hsplit, loadLoop_records recs _ tail [] hk hv]
    exact loadLoop_incomplete _ tail _ (incomplete_of_strict_initial tail key v hkey hp hlt)
  have hsmall : recs.length < 18446744073709551616 := by
    have h1 : (Header.ofBytes hdr).count < 256 ^ ((hdr.drop (12 + headerPadding)).take 8).length :=
      getLE_lt _
    have h2 : ((hdr.drop (12 + headerPadding)).take 8).length ≤ 8 := by
      rw [List.length_take]
      exact Nat.min_le_left _ _
    have h3 : 256 ^ ((hdr.drop (12 + headerPadding)).take 8).length ≤ 256 ^ 8 :=
      Nat.pow_le_pow_right (by decide) h2
    have h4 : (256 : Nat) ^ 8 = 18446744073709551616 := by norm_num
    omega
  refine ⟨hfirst, ?_⟩
  rw [hfirst, load_header _ _ hsmall]
  have h := loadLoop_records recs 0 [] [] hk hv
  simp only [Nat.add_zero, List.append_nil] at h
  rw [h, loadLoop]

/-- Witness for C10: a header announcing two records, the record ("bob", 10), and the first
eight bytes of the nine-byte record ("bob", 11). -/
theorem load_truncated_witness :
    load (some (Header.bytes { Header.init with count := 2 }
        ++ ([(bob, (10 : Int))].flatMap (fun r => writeRecord r.1 r.2)
          ++ (writeRecord bob 11).take 8)))
      = [(bob, (10 : Int))].foldl (fun s r => insert s r.1 r.2) [] ∧
    load (some (Header.bytes { Header.init with count := 2 }
        ++ ([(bob, (10 : Int))].flatMap (fun r => writeRecord r.1 r.2)
          ++ (writeRecord bob 11).take 8)))
      = load (some (Header.bytes { Header.init with count := [(bob, (10 : Int))].length }
          ++ [(bob, (10 : Int))].flatMap (fun r => writeRecord r.1 r.2))) :=
  load_truncated (Header.bytes { Header.init with count := 2 }) [(bob, 10)]
    ((writeRecord bob 11).take 8) bob 11 (by decide) (by decide) (by decide) (by decide)
    (by decide) (by decide) (by decide) (List.take_prefix _ _) (by decide)

theorem save_take_key (k : Key) (v : Int) : save [(k, [v])] = save [(k.take 65535, [v])] := by
  simp only [save, totalPairs, List.foldl_cons, List.foldl_nil, List.flatMap_cons,
    List.flatMap_nil, List.append_nil]
  rw [writeRecord_take]

theorem longKey_length : longKey.length = 65536 := by
  unfold longKey
  exact List.length_replicate _ _

theorem longKey_take_ne : longKey.take 65535 ≠ longKey := by
  intro h
  have h1 := congrArg List.length h
  rw [List.length_take, longKey_length] at h1
  omega

theorem run_insert_empty (k : Key) (v : Int) : run [] [Command.insert k v] = [(k, [v])] := by
  unfold run
  simp only [List.foldl_cons, List.foldl_nil, step]
  rw [insert_of_find_none [] k v (by simp only [find])]
  exact List.nil_append _

theorem wellTyped_singleton (k : Key) (v : Int) (hv : isInt32 v) : WellTyped [(k, [v])] := by
  refine ⟨by simp [UniqueKeys], ?_, by simp⟩
  intro kv hkv x hx
  simp only [List.mem_singleton] at hkv
  subst hkv
  simp only [List.mem_singleton] at hx
  subst hx
  exact hv

theorem storeInv_singleton (k : Key) (v : Int) : StoreInv [(k, [v])] := by
  intro kv hkv
  simp only [List.mem_singleton] at hkv
  subst hkv
  simp

/-- C1, as the code has it. For every store that satisfies the store invariants and whose keys
are all at most 65535 bytes long, loading the bytes written by `save` gives a store with
exactly the same keys and, for each key, exactly the same ascending value sequence. -/
theorem load_save_roundtrip (m : Store) (ht : WellTyped m) (hinv : StoreInv m)
    (hfit : KeysFit m) :
    ∀ key, find (load (some (save m))) key = find m key := by
  intro key
  rw [load_save m ht hinv hfit]

/-- Witness for C1: the store with "bob" mapped to -3, 10 and the empty key mapped to 7. -/
theorem load_save_roundtrip_witness :
    StoreInv [(bob, [-3, 10]), ([], [7])] ∧ KeysFit [(bob, [-3, 10]), ([], [7])] ∧
    ∀ key, find (load (some (save [(bob, [-3, 10]), ([], [7])]))) key
      = find [(bob, [-3, 10]), ([], [7])] key :=
  ⟨by decide, by decide,
    load_save_roundtrip [(bob, [-3, 10]), ([], [7])] (by decide) (by decide) (by decide)⟩

/-- C1 as stated fails: the store that maps a key of 65536 bytes to the single value 7 is
reached from the empty store by one insert and satisfies the store invariants, but the key is
absent from the store loaded from its snapshot, because `save` writes only the first 65535
bytes of the key. -/
theorem roundtrip_loses_long_key :
    run [] [Command.insert longKey 7] = longKeyStore ∧
    WellTyped longKeyStore ∧ StoreInv longKeyStore ∧
    find longKeyStore longKey = some [7] ∧
    find (load (some (save longKeyStore))) longKey = none := by
  refine ⟨?_, wellTyped_singleton longKey 7 (by decide), storeInv_singleton longKey 7, ?_, ?_⟩
  · exact run_insert_empty longKey 7
  · show find [(longKey, [7])] longKey = some [7]
    rw [find, if_pos rfl]
  · show find (load (some (save [(longKey, [7])]))) longKey = none
    rw [save_take_key, load_save _ (wellTyped_singleton _ 7 (by decide))
      (storeInv_singleton _ 7), find, if_neg longKey_take_ne]
    · rfl
    · intro kv hkv
      simp only [List.mem_singleton] at hkv
      subst hkv
      show (longKey.take 65535).length ≤ 65535
      rw [List.length_take]
      exact Nat.min_le_left _ _

/-- C2. For every store that satisfies the invariants and whose keys are all at most 65535
bytes long, saving the store and loading a new store from the written file gives a store on
which the find command returns, for every key, what it returned before. -/
theorem persistence_across_runs (s : Store) (ht : WellTyped s) (hinv : StoreInv s)
    (hfit : KeysFit s) :
    ∀ key, (findCmd (load (some (save s))) key).2 = (findCmd s key).2 := by
  intro key
  rw [load_save s ht hinv hfit]

/-- Witness for C2: the empty store loaded from an absent file, `find "bob"` prints `null`;
after `insert "bob" 10`, save and reload, `find "bob"` prints 10. -/
theorem persistence_across_runs_witness :
    (findCmd (load none) bob).2 = none ∧
    (∀ key, (findCmd (load (some (save (insert (load none) bob 10)))) key).2
      = (findCmd (insert (load none) bob 10) key).2) ∧
    (findCmd (load (some (save (insert (load none) bob 10)))) bob).2 = some [10] :=
  ⟨by decide,
    persistence_across_runs (insert (load none) bob 10) (by decide) (by decide) (by decide),
    by decide⟩

/-! ## Set view of the store: lemmas -/

theorem holds_iff (s : Store) (key : Key) (v : Int) :
    holds s key v ↔ ∃ vec, find s key = some vec ∧ v ∈ vec := by
  unfold holds
  cases find s key with
  | none => simp
  | some vec => simp

theorem holds_insert (s : Store) (key key2 : Key) (v v2 : Int) :
    holds (insert s key v) key2 v2 ↔ (key2 = key ∧ v2 = v) ∨ holds s key2 v2 := by
  unfold holds
  by_cases hk : key2 = key
  · subst hk
    rw [find_insert_same]
    simp [mem_sortedInsert]
  · rw [find_insert_other s key key2 v hk]
    simp [hk]

theorem find_delete_other (s : Store) (key key2 : Key) (v : Int) (hne : key2 ≠ key) :
    find (delete s key v) key2 = find s key2 := by
  unfold delete
  cases hf : find s key with
  | none => rfl
  | some vec0 =>
    simp only
    split
    · exact find_eraseKey_other s key key2 hne
    · exact find_modify_other s key key2 _ hne

theorem find_delete_same (s : Store) (key : Key) (v : Int) (vec : List Int)
    (hu : UniqueKeys s) (hs : vec.Sorted (· < ·)) (hf : find s key = some vec) :
    find (delete s key v) key = if vec.erase v = [] then none else some (vec.erase v) := by
  simp only [delete, hf, sortedErase_eq_erase vec v hs]
  by_cases he : vec.erase v = []
  · rw [he]
    simp only [List.isEmpty_nil, if_true]
    exact find_eraseKey_same s key hu
  · rw [if_neg (by simpa using he), if_neg he, find_modify_same, hf]
    rfl

theorem holds_delete (s : Store) (key key2 : Key) (v v2 : Int) (hu : UniqueKeys s)
    (hinv : StoreInv s) :
    holds (delete s key v) key2 v2 ↔ holds s key2 v2 ∧ ¬ (key2 = key ∧ v2 = v) := by
  by_cases hk : key2 = key
  · subst hk
    cases hf : find s key2 with
    | none =>
      have : delete s key2 v = s := by simp [delete, hf]
      rw [this]
      simp [holds, hf]
    | some vec =>
      have hs := (storeInv_entry s key2 vec hinv hf).2
      have hnd : vec.Nodup := hs.imp (fun hab => ne_of_lt hab)
      unfold holds
      rw [find_delete_same s key2 v vec hu hs hf, hf]
      by_cases he : vec.erase v = []
      · simp only [he, if_true, Option.getD_none, List.not_mem_nil, Option.getD_some,
          true_and, false_iff, not_and, not_not]
        intro hmem
        by_contra hne
        have : v2 ∈ vec.erase v := (List.mem_erase_of_ne hne).mpr hmem
        rw [he] at this
        exact absurd this (List.not_mem_nil _)
      · simp only [he, if_false, Option.getD_some, true_and]
        rw [List.Nodup.mem_erase_iff hnd]
        tauto
  · unfold holds
    rw [find_delete_other s key key2 v hk]
    simp [hk]

theorem find_eq_of_holds (s1 s2 : Store) (h1 : StoreInv s1) (h2 : StoreInv s2)
    (h : ∀ key v, holds s1 key v ↔ holds s2 key v) : ∀ key, find s1 key = find s2 key := by
  intro key
  have hmem : ∀ v, v ∈ (find s1 key).getD [] ↔ v ∈ (find s2 key).getD [] := fun v => h key v
  cases hf1 : find s1 key with
  | none =>
    cases hf2 : find s2 key with
    | none => rfl
    | some vec2 =>
      exfalso
      obtain ⟨hne, _⟩ := storeInv_entry s2 key vec2 h2 hf2
      obtain ⟨x, hx⟩ := List.exists_mem_of_ne_nil vec2 hne
      have := (hmem x).mpr (by simpa [hf2] using hx)
      simp [hf1] at this
  | some vec1 =>
    obtain ⟨hne1, hs1⟩ := storeInv_entry s1 key vec1 h1 hf1
    cases hf2 : find s2 key with
    | none =>
      exfalso
      obtain ⟨x, hx⟩ := List.exists_mem_of_ne_nil vec1 hne1
      have := (hmem x).mp (by simpa [hf1] using hx)
      simp [hf2] at this
    | some vec2 =>
      obtain ⟨_, hs2⟩ := storeInv_entry s2 key vec2 h2 hf2
      simp only [hf1, hf2, Option.getD_some] at hmem
      have hnd1 : vec1.Nodup := hs1.imp (fun hab => ne_of_lt hab)
      have hnd2 : vec2.Nodup := hs2.imp (fun hab => ne_of_lt hab)
      have hperm : vec1.Perm vec2 := (List.perm_ext_iff_of_nodup hnd1 hnd2).mpr hmem
      rw [List.eq_of_perm_of_sorted hperm hs1 hs2]

theorem find_none_iff_holds (s : Store) (key : Key) (hinv : StoreInv s) :
    find s key = none ↔ ∀ v, ¬ holds s key v := by
  unfold holds
  cases hf : find s key with
  | none => simp
  | some vec =>
    obtain ⟨hne, _⟩ := storeInv_entry s key vec hinv hf
    obtain ⟨x, hx⟩ := List.exists_mem_of_ne_nil vec hne
    simp only [reduceCtorEq, Option.getD_some, false_iff, not_forall, not_not]
    exact ⟨x, hx⟩

theorem storeInv_replay (s : Store) (recs : List (Key × Int)) (hinv : StoreInv s) :
    StoreInv (replay s recs) := by
  induction recs generalizing s with
  | nil => exact hinv
  | cons r recs ih => exact ih _ (storeInv_insert s r.1 r.2 hinv)

theorem holds_replay (s : Store) (recs : List (Key × Int)) (key : Key) (v : Int) :
    holds (replay s recs) key v ↔ (key, v) ∈ recs ∨ holds s key v := by
  induction recs generalizing s with
  | nil => simp [replay]
  | cons r recs ih =>
    show holds (replay (insert s r.1 r.2) recs) key v ↔ _
    rw [ih, holds_insert, List.mem_cons]
    obtain ⟨rk, rv⟩ := r
    simp only [Prod.mk.injEq]
    tauto

theorem run_snoc (s : Store) (cmds : List Command) (c : Command) :
    run s (cmds ++ [c]) = (step (run s cmds) c).1 := by
  simp [run, List.foldl_append]

theorem lastOpOn_snoc (cmds : List Command) (c : Command) (key : Key) (v : Int) :
    lastOpOn (cmds ++ [c]) key v = if isOpOn key v c = true then some c else lastOpOn cmds key v := by
  unfold lastOpOn
  rw [List.filter_append]
  by_cases h : isOpOn key v c = true
  · simp [h, List.filter_cons]
  · simp [h, List.filter_cons]

theorem holds_run (cmds : List Command) (key : Key) (v : Int) :
    holds (run [] cmds) key v ↔ lastOpIsInsert cmds key v := by
  induction cmds using List.reverseRecOn with
  | nil => simp [run, holds, find, lastOpIsInsert, lastOpOn]
  | append_singleton cmds c ih =>
    have hu : UniqueKeys (run [] cmds) := uniqueKeys_run [] cmds (by simp [UniqueKeys])
    have hinv : StoreInv (run [] cmds) := storeInv_run [] cmds (by simp [StoreInv])
    unfold lastOpIsInsert at ih ⊢
    rw [run_snoc, lastOpOn_snoc]
    cases c with
    | insert k2 v2 =>
      show holds (insert (run [] cmds) k2 v2) key v ↔ _
      rw [holds_insert, ih]
      by_cases hop : k2 = key ∧ v2 = v
      · obtain ⟨rfl, rfl⟩ := hop
        simp [isOpOn]
      · have hne : ¬ (key = k2 ∧ v = v2) := fun h => hop ⟨h.1.symm, h.2.symm⟩
        have hfalse : isOpOn key v (Command.insert k2 v2) = false := by
          simp only [isOpOn, Command.insert.injEq, reduceCtorEq, decide_False, Bool.or_false,
            decide_eq_false_iff_not]
          exact hop
        simp [hfalse, hne]
    | delete k2 v2 =>
      show holds (delete (run [] cmds) k2 v2) key v ↔ _
      rw [holds_delete _ _ _ _ _ hu hinv, ih]
      by_cases hop : k2 = key ∧ v2 = v
      · obtain ⟨rfl, rfl⟩ := hop
        simp [isOpOn]
      · have hne : ¬ (key = k2 ∧ v = v2) := fun h => hop ⟨h.1.symm, h.2.symm⟩
        have hfalse : isOpOn key v (Command.delete k2 v2) = false := by
          simp only [isOpOn, Command.delete.injEq, reduceCtorEq, decide_False, Bool.false_or,
            decide_eq_false_iff_not]
          exact hop
        simp [hfalse, hne]
    | find k2 =>
      have hstate : (step (run [] cmds) (Command.find k2)).1 = run [] cmds := by
        show (findCmd (run [] cmds) k2).1 = run [] cmds
        unfold findCmd
        split
        · rfl
        · split <;> rfl
      rw [hstate, ih]
      simp [isOpOn]

theorem load_complete (hdr : List UInt8) (recs : List (Key × Int)) (extra : List UInt8)
    (hlen : hdr.length = sizeofHeader) (hm : (Header.ofBytes hdr).magic = MAGIC)
    (hver : (Header.ofBytes hdr).version = VERSION)
    (hcount : (Header.ofBytes hdr).count = recs.length) (hrec : ∀ r ∈ recs, IsRecord r) :
    load (some (hdr ++ (writeRecords recs ++ extra))) = replay [] recs := by
  rw [load_valid_header hdr _ hlen hm hver, hcount]
  have h := loadLoop_records recs 0 extra [] (fun r hr => (hrec r hr).1) (fun r hr => (hrec r hr).2)
  simp only [Nat.add_zero] at h
  unfold writeRecords replay
  rw [h, loadLoop]

/-! ## Set semantics, replay and record order: the claims -/

/-- C11. A snapshot with a valid header announcing `n` records, followed by `n` complete
records and then by any further bytes, loads to the store obtained by applying the insert
branch to these `n` records in order, starting from the empty store; the bytes after the
`n` records are ignored. Hence it loads to the same mapping as the snapshot of the same
records with the duplicates removed. -/
theorem load_is_replay (hdr : List UInt8) (recs : List (Key × Int)) (extra : List UInt8)
    (hlen : hdr.length = sizeofHeader) (hm : (Header.ofBytes hdr).magic = MAGIC)
    (hver : (Header.ofBytes hdr).version = VERSION)
    (hcount : (Header.ofBytes hdr).count = recs.length) (hrec : ∀ r ∈ recs, IsRecord r) :
    load (some (hdr ++ (writeRecords recs ++ extra))) = replay [] recs ∧
    load (some (hdr ++ (writeRecords recs ++ extra))) = load (some (hdr ++ writeRecords recs)) ∧
    ∀ key, find (load (some (hdr ++ (writeRecords recs ++ extra)))) key
      = find (load (some (Header.bytes { Header.init with count := recs.dedup.length }
          ++ writeRecords recs.dedup))) key := by
  have h1 := load_complete hdr recs extra hlen hm hver hcount hrec
  have h2 := load_complete hdr recs [] hlen hm hver hcount hrec
  rw [List.append_nil] at h2
  refine ⟨h1, by rw [h1, h2], ?_⟩
  have hsmall : recs.dedup.length < 18446744073709551616 := by
    have hle : recs.dedup.length ≤ recs.length := (List.dedup_sublist recs).length_le
    have hc : (Header.ofBytes hdr).count < 256 ^ ((hdr.drop (12 + headerPadding)).take 8).length :=
      getLE_lt _
    have hl : ((hdr.drop (12 + headerPadding)).take 8).length ≤ 8 := by
      rw [List.length_take]
      exact Nat.min_le_left _ _
    have hp : 256 ^ ((hdr.drop (12 + headerPadding)).take 8).length ≤ 256 ^ 8 :=
      Nat.pow_le_pow_right (by decide) hl
    have h4 : (256 : Nat) ^ 8 = 18446744073709551616 := by norm_num
    omega
  have h3 : load (some (Header.bytes { Header.init with count := recs.dedup.length }
      ++ writeRecords recs.dedup)) = replay [] recs.dedup := by
    rw [load_header _ _ hsmall]
    have h := loadLoop_records recs.dedup 0 [] []
      (fun r hr => (hrec r (List.mem_dedup.mp hr)).1)
      (fun r hr => (hrec r (List.mem_dedup.mp hr)).2)
    simp only [Nat.add_zero, List.append_nil] at h
    unfold writeRecords replay
    rw [h, loadLoop]
  rw [h1, h3]
  apply find_eq_of_holds _ _ (storeInv_replay [] recs (by simp [StoreInv]))
    (storeInv_replay [] recs.dedup (by simp [StoreInv]))
  intro key v
  rw [holds_replay, holds_replay, List.mem_dedup]

/-- Witness for C11: a header announcing two records, the record ("bob", 10) twice, and three
further bytes. -/
theorem load_is_replay_witness :
    load (some (Header.bytes { Header.init with count := 2 }
        ++ (writeRecords [(bob, 10), (bob, 10)] ++ [1, 2, 3])))
      = replay [] [(bob, 10), (bob, 10)] ∧
    load (some (Header.bytes { Header.init with count := 2 }
        ++ (writeRecords [(bob, 10), (bob, 10)] ++ [1, 2, 3])))
      = load (some (Header.bytes { Header.init with count := 2 }
          ++ writeRecords [(bob, 10), (bob, 10)])) ∧
    ∀ key, find (load (some (Header.bytes { Header.init with count := 2 }
        ++ (writeRecords [(bob, 10), (bob, 10)] ++ [1, 2, 3])))) key
      = find (load (some (Header.bytes
          { Header.init with count := ([(bob, 10), (bob, 10)] : List (Key × Int)).dedup.length }
          ++ writeRecords ([(bob, 10), (bob, 10)] : List (Key × Int)).dedup))) key :=
  load_is_replay (Header.bytes { Header.init with count := 2 }) [(bob, 10), (bob, 10)] [1, 2, 3]
    (by decide) (by decide) (by decide) (by decide) (by decide)

/-- C19. After any sequence of commands applied to the empty store, a value `v` is among the
values `find` gives for a key exactly when the sequence contains an operation on the pair and
the last such operation is an insert; and `find` gives nothing for the key exactly when no
value satisfies this for the key. -/
theorem run_set_semantics (cmds : List Command) (key : Key) (v : Int) :
    ((∃ vec, find (run [] cmds) key = some vec ∧ v ∈ vec) ↔ lastOpIsInsert cmds key v) ∧
    (find (run [] cmds) key = none ↔ ∀ w, ¬ lastOpIsInsert cmds key w) := by
  refine ⟨?_, ?_⟩
  · rw [← holds_iff, holds_run]
  · rw [find_none_iff_holds _ _ (storeInv_run [] cmds (by simp [StoreInv]))]
    constructor
    · intro h w hw
      exact h w ((holds_run cmds key w).mpr hw)
    · intro h w hw
      exact h w ((holds_run cmds key w).mp hw)

/-- C20. Two snapshots with the same valid header whose records are permutations of one
another load to the same mapping: `find` gives the same result for every key. -/
theorem load_order_independent (hdr : List UInt8) (recs1 recs2 : List (Key × Int))
    (hlen : hdr.length = sizeofHeader) (hm : (Header.ofBytes hdr).magic = MAGIC)
    (hver : (Header.ofBytes hdr).version = VERSION)
    (hcount : (Header.ofBytes hdr).count = recs1.length) (hrec : ∀ r ∈ recs1, IsRecord r)
    (hperm : recs1.Perm recs2) :
    ∀ key, find (load (some (hdr ++ writeRecords recs1))) key
      = find (load (some (hdr ++ writeRecords recs2))) key := by
  have h1 := load_complete hdr recs1 [] hlen hm hver hcount hrec
  have h2 := load_complete hdr recs2 [] hlen hm hver (by rw [hcount, hperm.length_eq])
    (fun r hr => hrec r (hperm.mem_iff.mpr hr))
  rw [List.append_nil] at h1 h2
  rw [h1, h2]
  apply find_eq_of_holds _ _ (storeInv_replay [] recs1 (by simp [StoreInv]))
    (storeInv_replay [] recs2 (by simp [StoreInv]))
  intro key v
  rw [holds_replay, holds_replay, hperm.mem_iff]

/-- Witness for C20: three records under the keys "bob" and "a", in two orders. -/
theorem load_order_independent_witness :
    List.Perm [(bob, (10 : Int)), ([97], 3), (bob, 5)] [(bob, 5), (bob, 10), ([97], 3)] ∧
    ∀ key, find (load (some (Header.bytes { Header.init with count := 3 }
        ++ writeRecords [(bob, 10), ([97], 3), (bob, 5)]))) key
      = find (load (some (Header.bytes { Header.init with count := 3 }
          ++ writeRecords [(bob, 5), (bob, 10), ([97], 3)]))) key :=
  ⟨by decide,
    load_order_independent (Header.bytes { Header.init with count := 3 })
      [(bob, 10), ([97], 3), (bob, 5)] [(bob, 5), (bob, 10), ([97], 3)]
      (by decide) (by decide) (by decide) (by decide) (by decide) (by decide)⟩

/-! ## The bytes written by `save`: lemmas -/

theorem ofBytes_headerBytes (c : Nat) :
    Header.ofBytes (Header.bytes { Header.init with count := c })
      = { magic := MAGIC, version := VERSION, reserved := 0,
          count := c % 18446744073709551616 } := by
  rw [headerBytes_init]
  have hm : (Header.ofBytes ([84, 83, 86, 75, 1, 0, 0, 0, 0, 0, 0, 0, 0, 0, 0, 0]
      ++ putLE 8 c)).magic = MAGIC := by
    simp only [Header.ofBytes, List.take, List.cons_append, getLE, MAGIC]
    decide
  have hver : (Header.ofBytes ([84, 83, 86, 75, 1, 0, 0, 0, 0, 0, 0, 0, 0, 0, 0, 0]
      ++ putLE 8 c)).version = VERSION := by
    simp only [Header.ofBytes, List.take, List.drop, List.cons_append, getLE, VERSION]
    decide
  have hres : (Header.ofBytes ([84, 83, 86, 75, 1, 0, 0, 0, 0, 0, 0, 0, 0, 0, 0, 0]
      ++ putLE 8 c)).reserved = 0 := by
    simp only [Header.ofBytes, List.take, List.drop, List.cons_append, getLE]
    decide
  have hcnt : (Header.ofBytes ([84, 83, 86, 75, 1, 0, 0, 0, 0, 0, 0, 0, 0, 0, 0, 0]
      ++ putLE 8 c)).count = c % 18446744073709551616 := by
    show getLE (List.take 8 (putLE 8 c)) = _
    rw [List.take_of_length_le (by rw [putLE_length]), getLE_putLE]
    norm_num
  rw [← hm, ← hver, ← hres, ← hcnt]

theorem take_header_save (s : Store) :
    (save s).take sizeofHeader = Header.bytes { Header.init with count := totalPairs s } := by
  rw [save_eq]
  exact List.take_left' (headerBytes_length _)

theorem drop_header_save (s : Store) :
    (save s).drop sizeofHeader = writeRecords (records s) := by
  rw [save_eq]
  exact List.drop_left' (headerBytes_length _)

theorem records_length (s : Store) :
    (records s).length = (s.map (fun kv => kv.2.length)).sum := by
  induction s with
  | nil => rfl
  | cons e s ih =>
    obtain ⟨k, vs⟩ := e
    rw [records_cons, List.length_append, List.length_map, ih]
    rfl

theorem totalPairs_eq (s : Store) :
    totalPairs s = (s.map (fun kv => kv.2.length)).sum % 18446744073709551616 := by
  unfold totalPairs
  rw [foldl_sizes, Nat.zero_add, records_length]

theorem writeRecord_bytes (key : Key) (v : Int) :
    writeRecord key v = putLE 2 (min key.length 65535) ++ key.take (min key.length 65535)
      ++ putLE 4 (int32Bits v) := by
  unfold writeRecord
  have h1 : min key.length 65535 % 65536 = min key.length 65535 := by omega
  simp only [h1]
  by_cases h0 : min key.length 65535 = 0
  · simp [h0]
  · simp [h0]

theorem writeRecord_length_gen (key : Key) (v : Int) :
    (writeRecord key v).length = 2 + min key.length 65535 + 4 := by
  rw [writeRecord_bytes]
  simp only [List.length_append, putLE_length, List.length_take]
  omega

theorem writeRecords_length (recs : List (Key × Int)) :
    (writeRecords recs).length = (recs.map (fun r => 2 + min r.1.length 65535 + 4)).sum := by
  induction recs with
  | nil => rfl
  | cons r recs ih =>
    show (writeRecord r.1 r.2 ++ writeRecords recs).length = _
    rw [List.length_append, ih, writeRecord_length_gen]
    rfl

theorem split_of_find (s : Store) (key : Key) (vec : List Int) (hu : UniqueKeys s)
    (hf : find s key = some vec) :
    ∃ s1 s2, s = s1 ++ (key, vec) :: s2 ∧ key ∉ s1.map Prod.fst ∧ key ∉ s2.map Prod.fst := by
  obtain ⟨s1, s2, hs⟩ := List.append_of_mem (mem_of_find s key vec hf)
  refine ⟨s1, s2, hs, ?_, ?_⟩
  · unfold UniqueKeys at hu
    rw [hs, List.map_append, List.nodup_append] at hu
    intro hmem
    exact hu.2.2 hmem (by simp)
  · unfold UniqueKeys at hu
    rw [hs, List.map_append, List.map_cons, List.nodup_append, List.nodup_cons] at hu
    exact hu.2.1.1

theorem records_append (s1 s2 : Store) : records (s1 ++ s2) = records s1 ++ records s2 := by
  simp [records]

theorem writeRecords_append (r1 r2 : List (Key × Int)) :
    writeRecords (r1 ++ r2) = writeRecords r1 ++ writeRecords r2 := by
  simp [writeRecords]

/-! ## The bytes written by `save`: the claims -/

/-- C12. For every store whose number of pairs fits `uint64_t`, the header written by `save`
has `magic = MAGIC` and `version = VERSION` (the values `load` accepts), `reserved = 0`, and
`count` equal to the sum of the lengths of the value sequences over all keys, which is the
number of records written after the header. -/
theorem save_header (s : Store)
    (hsize : (s.map (fun kv => kv.2.length)).sum < 18446744073709551616) :
    Header.ofBytes ((save s).take sizeofHeader)
      = { magic := MAGIC, version := VERSION, reserved := 0,
          count := (s.map (fun kv => kv.2.length)).sum } ∧
    (save s).drop sizeofHeader = writeRecords (records s) ∧
    (records s).length = (s.map (fun kv => kv.2.length)).sum := by
  refine ⟨?_, drop_header_save s, records_length s⟩
  rw [take_header_save, ofBytes_headerBytes, totalPairs_eq, Nat.mod_mod, Nat.mod_eq_of_lt hsize]

/-- Witness for C12: the store with "bob" mapped to 5, 10 and "alice" mapped to 3. -/
theorem save_header_witness :
    Header.ofBytes ((save [(bob, [5, 10]), (alice, [3])]).take sizeofHeader)
      = { magic := MAGIC, version := VERSION, reserved := 0, count := 3 } ∧
    (save [(bob, [5, 10]), (alice, [3])]).drop sizeofHeader
      = writeRecords [(bob, 5), (bob, 10), (alice, 3)] ∧
    (records [(bob, [5, 10]), (alice, [3])]).length = 3 :=
  save_header [(bob, [5, 10]), (alice, [3])] (by decide)

/-- C13, as the code has it. The bytes written by `save` are the object representation of
`Header`, which takes `sizeof(Header) = 24` bytes: `magic` at offset 0, `version` at 4,
`reserved` at 8, four padding bytes, `count` at offset 16; from offset 24 on follow the
records, each a 2-byte key length, that many key bytes and a 4-byte value. The file has
24 + sum (2 + l_i + 4) bytes for records with key lengths l_i, and `load` reads the header
from the same 24 bytes. -/
theorem save_layout (s : Store) :
    sizeofHeader = 24 ∧
    (save s).take 4 = putLE 4 MAGIC ∧
    ((save s).drop 4).take 4 = putLE 4 VERSION ∧
    ((save s).drop 8).take 4 = putLE 4 0 ∧
    ((save s).drop 16).take 8 = putLE 8 (totalPairs s) ∧
    (save s).drop 24 = writeRecords (records s) ∧
    (∀ key v, writeRecord key v = putLE 2 (min key.length 65535)
      ++ key.take (min key.length 65535) ++ putLE 4 (int32Bits v)) ∧
    (save s).length = 24 + ((records s).map (fun r => 2 + min r.1.length 65535 + 4)).sum ∧
    load (some (save s))
      = loadLoop (Header.ofBytes ((save s).take 24)).count
          { buf := (save s).drop 24, failed := false } [] := by
  have hs : save s = [84, 83, 86, 75, 1, 0, 0, 0, 0, 0, 0, 0, 0, 0, 0, 0]
      ++ (putLE 8 (totalPairs s) ++ writeRecords (records s)) := by
    rw [save_eq, headerBytes_init, List.append_assoc]
    rfl
  have hdrop : (save s).drop 24 = writeRecords (records s) := drop_header_save s
  have htake : (save s).take 24 = Header.bytes { Header.init with count := totalPairs s } :=
    take_header_save s
  refine ⟨rfl, ?_, ?_, ?_, ?_, hdrop, writeRecord_bytes, ?_, ?_⟩
  · rw [hs]
    simp only [List.cons_append, List.take]
    decide
  · rw [hs]
    simp only [List.cons_append, List.take, List.drop]
    decide
  · rw [hs]
    simp only [List.cons_append, List.take, List.drop]
    decide
  · rw [hs]
    show List.take 8 (putLE 8 (totalPairs s) ++ writeRecords (records s)) = _
    exact List.take_left' (putLE_length 8 _)
  · rw [save_eq, List.length_append, headerBytes_length]
    show sizeofHeader + (writeRecords (records s)).length = _
    rw [writeRecords_length]
    rfl
  · rw [hdrop, htake, ofBytes_headerBytes]
    have hlt : totalPairs s < 18446744073709551616 := by
      unfold totalPairs
      exact Nat.mod_lt _ (by decide)
    rw [Nat.mod_eq_of_lt hlt, save_eq, load_header _ _ hlt]
    rfl

/-- C13 as stated fails: the snapshot of the empty store has 24 bytes, not 20, and in the
snapshot of the store with the single pair ("bob", 10) the 8 bytes at offset 12 do not hold
the count 1, which is held by the 8 bytes at offset 16. -/
theorem save_header_is_not_20_bytes :
    (save []).length = 24 ∧
    getLE (((save [(bob, [10])]).drop 12).take 8) ≠ 1 ∧
    getLE (((save [(bob, [10])]).drop 16).take 8) = 1 := by
  decide

/-- C15, as the code has it. `save` writes `reserved = 0` whatever file the store was loaded
from and whatever commands were run: the header read by `load` is not kept. In particular
the first write, with no snapshot before it, has `reserved = 0`. -/
theorem reserved_written_zero (file : Option (List UInt8)) (cmds : List Command) :
    (Header.ofBytes ((save (run (load file) cmds)).take sizeofHeader)).reserved = 0 ∧
    (Header.ofBytes ((save (run (load none) cmds)).take sizeofHeader)).reserved = 0 := by
  constructor <;> rw [take_header_save, ofBytes_headerBytes]

/-- C15 as stated fails: the snapshot that consists of a valid header with `reserved = 1` is
accepted by `load`, and the snapshot saved after loading it has `reserved = 0`. -/
theorem reserved_not_round_tripped :
    reservedOneHeader.length = sizeofHeader ∧
    (Header.ofBytes reservedOneHeader).magic = MAGIC ∧
    (Header.ofBytes reservedOneHeader).version = VERSION ∧
    (Header.ofBytes reservedOneHeader).reserved = 1 ∧
    (Header.ofBytes ((save (load (some reservedOneHeader))).take sizeofHeader)).reserved = 0 := by
  decide

/-- C17. For a store with distinct keys that satisfies the invariants and a key with the
values `vec`, the records written by `save` are: records of other keys, then exactly the
records of the key with the values of `vec` in their order, which is ascending, then records
of other keys; and every record written is a pair of the store. -/
theorem save_record_order (s : Store) (key : Key) (vec : List Int) (hu : UniqueKeys s)
    (hinv : StoreInv s) (hf : find s key = some vec) :
    (∃ before after : List (Key × Int),
      records s = before ++ vec.map (fun v => (key, v)) ++ after ∧
      (save s).drop sizeofHeader
        = writeRecords before ++ vec.flatMap (fun v => writeRecord key v) ++ writeRecords after ∧
      (∀ r ∈ before, r.1 ≠ key) ∧ (∀ r ∈ after, r.1 ≠ key)) ∧
    vec.Sorted (· < ·) ∧
    ∀ r ∈ records s, ∃ w, find s r.1 = some w ∧ r.2 ∈ w := by
  refine ⟨?_, (storeInv_entry s key vec hinv hf).2, ?_⟩
  · obtain ⟨s1, s2, hs, h1, h2⟩ := split_of_find s key vec hu hf
    refine ⟨records s1, records s2, ?_, ?_, ?_, ?_⟩
    · rw [hs, records_append, records_cons, List.append_assoc]
    · rw [drop_header_save, hs, records_append, records_cons, writeRecords_append,
        writeRecords_append, List.append_assoc]
      congr 2
      simp [writeRecords, List.flatMap_map]
    · intro r hr heq
      obtain ⟨kv, hkv, hk, _⟩ := records_key_mem s1 r hr
      exact h1 (List.mem_map.mpr ⟨kv, hkv, hk.trans heq⟩)
    · intro r hr heq
      obtain ⟨kv, hkv, hk, _⟩ := records_key_mem s2 r hr
      exact h2 (List.mem_map.mpr ⟨kv, hkv, hk.trans heq⟩)
  · intro r hr
    obtain ⟨kv, hkv, hk, hv⟩ := records_key_mem s r hr
    refine ⟨kv.2, ?_, hv⟩
    rw [← hk]
    exact find_of_mem s kv.1 kv.2 hu hkv

/-- Witness for C17: the store with "alice" mapped to 3, "bob" mapped to 5, 10 and the empty
key mapped to 7, and the key "bob". -/
theorem save_record_order_witness :
    (∃ before after : List (Key × Int),
      records [(alice, [3]), (bob, [5, 10]), ([], [7])]
        = before ++ [5, 10].map (fun v => (bob, v)) ++ after ∧
      (save [(alice, [3]), (bob, [5, 10]), ([], [7])]).drop sizeofHeader
        = writeRecords before ++ [5, 10].flatMap (fun v => writeRecord bob v)
          ++ writeRecords after ∧
      (∀ r ∈ before, r.1 ≠ bob) ∧ (∀ r ∈ after, r.1 ≠ bob)) ∧
    [(5 : Int), 10].Sorted (· < ·) ∧
    ∀ r ∈ records [(alice, [3]), (bob, [5, 10]), ([], [7])],
      ∃ w, find [(alice, [3]), (bob, [5, 10]), ([], [7])] r.1 = some w ∧ r.2 ∈ w :=
  save_record_order [(alice, [3]), (bob, [5, 10]), ([], [7])] bob [5, 10]
    (by decide) (by decide) (by decide)

/-- C18. For a key longer than 65535 bytes, the record that `save` writes for the key and a
value has the key-length field 65535 followed by exactly the first 65535 bytes of the key and
the value, and `load` reads it back as a record of the truncated key; for a key of at most
65535 bytes the length field is the length of the key and all key bytes are written. Every
record in the file is written this way. -/
theorem writeRecord_truncates (key : Key) (v : Int) :
    (65535 < key.length →
      writeRecord key v = putLE 2 65535 ++ key.take 65535 ++ putLE 4 (int32Bits v) ∧
      getLE (putLE 2 65535) = 65535 ∧ (key.take 65535).length = 65535) ∧
    (key.length ≤ 65535 →
      writeRecord key v = putLE 2 key.length ++ key ++ putLE 4 (int32Bits v) ∧
      getLE (putLE 2 key.length) = key.length) ∧
    (isInt32 v → ∀ (n : Nat) (rest : List UInt8) (store : Store),
      loadLoop (n + 1) { buf := writeRecord key v ++ rest, failed := false } store
        = loadLoop n { buf := rest, failed := false } (insert store (key.take 65535) v)) ∧
    (∀ s : Store, (save s).drop sizeofHeader
      = s.flatMap (fun kv => kv.2.flatMap (fun w => writeRecord kv.1 w))) := by
  refine ⟨?_, ?_, ?_, ?_⟩
  · intro h
    have hmin : min key.length 65535 = 65535 := by omega
    refine ⟨?_, by decide, ?_⟩
    · rw [writeRecord_bytes, hmin]
    · rw [List.length_take]
      omega
  · intro h
    refine ⟨writeRecord_eq key v h, ?_⟩
    rw [getLE_putLE]
    omega
  · intro hv n rest store
    rw [writeRecord_take]
    apply loadLoop_record _ _ _ _ _ _ hv
    rw [List.length_take]
    exact Nat.min_le_left _ _
  · intro s
    rw [drop_header_save]
    exact flatMap_records s

/-! ## Driver: lemmas -/

theorem digitChar_ne_n (d : Nat) (h : d < 10) : Nat.digitChar d ≠ 'n' := by
  interval_cases d <;> decide

theorem toDigitsCore_chars (fuel n : Nat) (ds : List Char) (h : ∀ c ∈ ds, c ≠ 'n') :
    ∀ c ∈ Nat.toDigitsCore 10 fuel n ds, c ≠ 'n' := by
  induction fuel generalizing n ds with
  | zero => simpa [Nat.toDigitsCore] using h
  | succ fuel ih =>
    have hds : ∀ c ∈ Nat.digitChar (n % 10) :: ds, c ≠ 'n' := by
      intro c hc
      rcases List.mem_cons.mp hc with rfl | hc
      · exact digitChar_ne_n _ (Nat.mod_lt _ (by decide))
      · exact h c hc
    unfold Nat.toDigitsCore
    simp only
    split
    · exact hds
    · exact ih _ _ hds

theorem toDigitsCore_ne_nil (b fuel n : Nat) (ds : List Char) (h : ds ≠ [] ∨ fuel ≠ 0) :
    Nat.toDigitsCore b fuel n ds ≠ [] := by
  induction fuel generalizing n ds with
  | zero =>
    rcases h with h | h
    · simpa [Nat.toDigitsCore] using h
    · exact absurd rfl h
  | succ fuel ih =>
    unfold Nat.toDigitsCore
    simp only
    split
    · simp
    · exact ih _ _ (Or.inl (by simp))

theorem natRepr_head (n : Nat) : ∃ c cs, (Nat.repr n).data = c :: cs ∧ c ≠ 'n' := by
  have h1 : Nat.toDigits 10 n ≠ [] := toDigitsCore_ne_nil 10 (n + 1) n [] (Or.inr (by simp))
  have h2 := toDigitsCore_chars (n + 1) n [] (by simp)
  obtain ⟨c, cs, hc⟩ := List.exists_cons_of_ne_nil h1
  refine ⟨c, cs, ?_, ?_⟩
  · show (Nat.toDigits 10 n).asString.data = _
    rw [hc]
    rfl
  · apply h2 c
    show c ∈ Nat.toDigits 10 n
    rw [hc]
    exact List.mem_cons_self _ _

theorem intToString_head (v : Int) : ∃ c cs, (toString v).data = c :: cs ∧ c ≠ 'n' := by
  cases v with
  | ofNat m => exact natRepr_head m
  | negSucc m =>
    refine ⟨'-', (Nat.repr (m + 1)).data, ?_, by decide⟩
    rfl

theorem printFrom_ne_null (vec : List Int) (hne : vec ≠ []) :
    printFrom 0 vec ++ "\n" ≠ "null\n" := by
  obtain ⟨v, vs, rfl⟩ := List.exists_cons_of_ne_nil hne
  obtain ⟨c, cs, hc, hcn⟩ := intToString_head v
  intro h
  have hd := congrArg String.data h
  simp only [printFrom, ne_eq, not_true_eq_false, if_false, String.data_append, hc] at hd
  have hhead : c = 'n' := by
    have := congrArg List.head? hd
    simpa using this
  exact hcn hhead

theorem run_cons (s : Store) (c : Command) (cmds : List Command) :
    run s (c :: cmds) = run (step s c).1 cmds := rfl

theorem outputs_cons (s : Store) (c : Command) (cs : List Command) :
    outputs s (c :: cs)
      = (match (step s c).2 with
          | none => []
          | some r => [printResult r]) ++ outputs (step s c).1 cs := by
  rw [outputs]
  cases (step s c).2 <;> rfl

theorem outputs_append (s : Store) (pre rest : List Command) :
    outputs s (pre ++ rest) = outputs s pre ++ outputs (run s pre) rest := by
  induction pre generalizing s with
  | nil => rfl
  | cons c pre ih =>
    rw [List.cons_append, outputs_cons, outputs_cons s c pre, run_cons, ih, List.append_assoc]

theorem findCmd_fst (s : Store) (key : Key) : (findCmd s key).1 = s := by
  unfold findCmd
  split
  · rfl
  · split <;> rfl

theorem findCmd_snd_of_inv (s : Store) (key : Key) (hinv : StoreInv s) :
    (findCmd s key).2 = find s key := by
  unfold findCmd
  cases hf : find s key with
  | none => rfl
  | some vec =>
    have hne := (storeInv_entry s key vec hinv hf).1
    simp only
    rw [if_neg (by simpa using hne)]

theorem intercalate_go_eq (acc : String) (j : Nat) (vs : List Int) :
    String.intercalate.go acc " " (vs.map (fun v => toString v))
      = acc ++ printFrom (j + 1) vs := by
  induction vs generalizing acc j with
  | nil =>
    show acc = acc ++ ""
    rw [String.append_empty]
  | cons v vs ih =>
    show String.intercalate.go (acc ++ " " ++ toString v) " " (vs.map (fun v => toString v))
      = acc ++ ((if j + 1 ≠ 0 then " " else "") ++ toString v ++ printFrom (j + 1 + 1) vs)
    rw [ih _ (j + 1), if_pos (Nat.succ_ne_zero j)]
    simp only [String.append_assoc]

theorem printFrom_eq_intercalate (vec : List Int) :
    printFrom 0 vec = String.intercalate " " (vec.map (fun v => toString v)) := by
  cases vec with
  | nil => rfl
  | cons v vs =>
    show (if 0 ≠ 0 then " " else "") ++ toString v ++ printFrom (0 + 1) vs
      = String.intercalate.go (toString v) " " (vs.map (fun v => toString v))
    rw [intercalate_go_eq (toString v) 0 vs, if_neg (by decide), String.empty_append]

/-! ## Driver: the claims -/

/-- C14, as the code has it. When the destination cannot be opened at the end of the run,
`save` returns without a signal: `main` returns 0 and has written to `cout` exactly what it
writes when the file is saved, and the file is left as it was before the run. -/
theorem save_failure_silent (file : Option (List UInt8)) (input : Option (List Command)) :
    (main file false input).status = 0 ∧
    (main file false input).status = (main file true input).status ∧
    (main file false input).out = (main file true input).out ∧
    (main file false input).file = file := by
  cases input with
  | none => exact ⟨rfl, rfl, rfl, rfl⟩
  | some cmds => exact ⟨rfl, rfl, rfl, rfl⟩

/-- C14 as stated fails: with no file at start and the command `insert bob 10`, a run whose
destination cannot be opened returns the same status, 0, and the same output as the run that
saves the store, although no file has been written. -/
theorem unwritable_not_surfaced :
    (main none false (some [Command.insert bob 10])).status = 0 ∧
    (main none true (some [Command.insert bob 10])).status = 0 ∧
    (main none false (some [Command.insert bob 10])).out
      = (main none true (some [Command.insert bob 10])).out ∧
    (main none false (some [Command.insert bob 10])).file = none ∧
    (main none true (some [Command.insert bob 10])).file = some (save [(bob, [10])]) := by
  decide

/-- C16. Run against a store that satisfies the invariants, an insert or a delete command
prints nothing, and a find command prints one line: `null` when the key is absent, and
otherwise the decimal values stored for the key, in their ascending order, separated by
single spaces; the line is `null` only when the key is absent. -/
theorem driver_output (s : Store) (pre post : List Command) (hinv : StoreInv s) :
    (∀ key v, outputs s (pre ++ Command.insert key v :: post)
      = outputs s pre ++ outputs (insert (run s pre) key v) post) ∧
    (∀ key v, outputs s (pre ++ Command.delete key v :: post)
      = outputs s pre ++ outputs (delete (run s pre) key v) post) ∧
    (∀ key, outputs s (pre ++ Command.find key :: post)
      = outputs s pre
        ++ printResult (findCmd (run s pre) key).2 :: outputs (run s pre) post) ∧
    (∀ key, find (run s pre) key = none →
      printResult (findCmd (run s pre) key).2 = "null\n") ∧
    (∀ key vec, find (run s pre) key = some vec →
      printResult (findCmd (run s pre) key).2
        = String.intercalate " " (vec.map (fun v => toString v)) ++ "\n" ∧
      vec.Sorted (· < ·) ∧
      String.intercalate " " (vec.map (fun v => toString v)) ++ "\n" ≠ "null\n") := by
  have hrun : StoreInv (run s pre) := storeInv_run s pre hinv
  refine ⟨?_, ?_, ?_, ?_, ?_⟩
  · intro key v
    rw [outputs_append]
    rfl
  · intro key v
    rw [outputs_append]
    rfl
  · intro key
    rw [outputs_append]
    congr 1
    show printResult (findCmd (run s pre) key).2 :: outputs (findCmd (run s pre) key).1 post = _
    rw [findCmd_fst]
  · intro key hf
    rw [findCmd_snd_of_inv _ _ hrun, hf]
    rfl
  · intro key vec hf
    obtain ⟨hne, hs⟩ := storeInv_entry _ key vec hrun hf
    rw [findCmd_snd_of_inv _ _ hrun, hf, ← printFrom_eq_intercalate]
    exact ⟨rfl, hs, printFrom_ne_null vec hne⟩

/-- Witness for C16: `insert alice 5`, `insert alice 3`, `insert alice 5`, `find alice` print
the line `3 5`; then `delete alice 3`, `delete alice 5`, `find alice` print `null`. A key
holding -2, 3, 5, 7 is printed as `-2 3 5 7`. -/
theorem driver_output_witness :
    outputs [] (aliceInserts ++ Command.find alice :: aliceDeletes) = ["3 5\n", "null\n"] ∧
    outputs [(bob, [-2, 3, 5, 7])] [Command.find bob] = ["-2 3 5 7\n"] ∧
    outputs [] (aliceInserts ++ Command.find alice :: aliceDeletes)
      = outputs [] aliceInserts
        ++ printResult (findCmd (run [] aliceInserts) alice).2
          :: outputs (run [] aliceInserts) aliceDeletes :=
  ⟨by decide, by decide, (driver_output [] aliceInserts aliceDeletes (by decide)).2.2.1 alice⟩

/-! ## The find branch: the claim -/

theorem storeInv_load (file : Option (List UInt8)) : StoreInv (load file) := by
  rcases load_cases file with h | ⟨n, fin, h⟩
  · rw [h]
    simp [StoreInv]
  · rw [h]
    exact storeInv_loadLoop n fin [] (by simp [StoreInv])

/-- C8. The find branch is a pure read. In every store state it leaves the mapping exactly
unchanged, so a miss creates no entry. In every state the program reaches, that is after
loading any file and running any commands, it gives the absent result exactly when the key
is not present in the mapping, and otherwise the strictly ascending value sequence stored
for the key. -/
theorem findCmd_pure_read (file : Option (List UInt8)) (cmds : List Command) (key : Key) :
    (∀ s : Store, (findCmd s key).1 = s ∧ (step s (Command.find key)).1 = s) ∧
    ((findCmd (run (load file) cmds) key).2 = none
      ↔ key ∉ (run (load file) cmds).map Prod.fst) ∧
    ((findCmd (run (load file) cmds) key).2 = none
      ↔ find (run (load file) cmds) key = none) ∧
    (∀ vec, find (run (load file) cmds) key = some vec →
      (findCmd (run (load file) cmds) key).2 = some vec ∧ vec ≠ [] ∧ vec.Sorted (· < ·)) := by
  have hinv : StoreInv (run (load file) cmds) := storeInv_run _ cmds (storeInv_load file)
  refine ⟨fun s => ⟨findCmd_fst s key, findCmd_fst s key⟩, ?_, ?_, ?_⟩
  · rw [findCmd_snd_of_inv _ _ hinv, find_eq_none_iff]
  · rw [findCmd_snd_of_inv _ _ hinv]
  · intro vec hf
    obtain ⟨hne, hs⟩ := storeInv_entry _ key vec hinv hf
    rw [findCmd_snd_of_inv _ _ hinv, hf]
    exact ⟨rfl, hne, hs⟩

end kvstore
